import Mathlib

/-!
# Verification of the EfsharHeshbon puzzle backend

A shallow embedding of `src/backend/core_logic.py`, `src/backend/manual_input.py`
and the solver endpoint of `src/backend/main.py`, together with proofs about the
constraint solver (subset enumeration, pruned backtracking, exhaustive solution
enumeration), the confusion metric and the board generator.

Conventions of the embedding:
* Python ints are `ℤ`; Python lists are Lean `List`s.
* `functools.reduce(op, l)` over a non-empty list is `reduceOp`; every caller in
  the source guards against the empty list, for which `reduceOp` returns the
  junk value `0`.
* Python `%` and `//` on ints agree with Lean `Int.emod` / `Int.ediv` whenever
  the divisor is positive, which is the case at every call site (digits 1..9).
* In-place mutation of the search grid is modelled by passing the list of
  committed mask rows; the recursion in the source only ever reads rows
  `0..row_idx`, writes row `row_idx` and restores it before returning, so the
  committed prefix is the entire live state.
* The caller-owned accumulator `best_solution = [float("inf"), None]` is
  modelled as `Option (ℕ × Mask)` with `none` for the initial
  `(inf, None)` state; `updateBest` performs the strictly-smaller update.
-/

/-- The combining operator (`operator.add` / `operator.mul` in the source). -/
inductive Op where
  | add
  | mul
deriving DecidableEq, Repr

/-- Application of the operator to two integers. -/
def Op.apply : Op → ℤ → ℤ → ℤ
  | .add, a, b => a + b
  | .mul, a, b => a * b

/-- `functools.reduce(op, l)` for non-empty `l`; returns `0` on `[]`
(the source never reduces an empty list). -/
def reduceOp (op : Op) : List ℤ → ℤ
  | [] => 0
  | x :: xs => xs.foldl op.apply x

theorem foldl_apply_add (x : ℤ) (xs : List ℤ) :
    xs.foldl (Op.apply .add) x = x + xs.sum := by
  induction xs generalizing x with
  | nil => simp
  | cons y ys ih => simp [Op.apply, ih, add_assoc]

theorem foldl_apply_mul (x : ℤ) (xs : List ℤ) :
    xs.foldl (Op.apply .mul) x = x * xs.prod := by
  induction xs generalizing x with
  | nil => simp
  | cons y ys ih => simp [Op.apply, ih, mul_assoc]

theorem reduceOp_add_eq_sum {l : List ℤ} (h : l ≠ []) : reduceOp .add l = l.sum := by
  cases l with
  | nil => exact absurd rfl h
  | cons x xs => simp [reduceOp, foldl_apply_add]

theorem reduceOp_mul_eq_prod {l : List ℤ} (h : l ≠ []) : reduceOp .mul l = l.prod := by
  cases l with
  | nil => exact absurd rfl h
  | cons x xs => simp [reduceOp, foldl_apply_mul]

/-- `reduceOp` is invariant under permutation of a non-empty list. -/
theorem reduceOp_perm (op : Op) {l l' : List ℤ} (h : l.Perm l') (hne : l ≠ []) :
    reduceOp op l = reduceOp op l' := by
  have hne' : l' ≠ [] := by
    intro h0
    exact hne (List.Perm.eq_nil (h0 ▸ h))
  cases op with
  | add => rw [reduceOp_add_eq_sum hne, reduceOp_add_eq_sum hne', h.sum_eq]
  | mul => rw [reduceOp_mul_eq_prod hne, reduceOp_mul_eq_prod hne', h.prod_eq]

/-- A non-empty list of elements `≥ 1` reduces to a value `≥ 1` under either
operator. -/
theorem one_le_reduceOp (op : Op) {l : List ℤ} (hne : l ≠ [])
    (hpos : ∀ x ∈ l, 1 ≤ x) : 1 ≤ reduceOp op l := by
  cases op with
  | add =>
    rw [reduceOp_add_eq_sum hne]
    cases l with
    | nil => exact absurd rfl hne
    | cons x xs =>
      have h1 : (1 : ℤ) ≤ x := hpos x (by simp)
      have h2 : (0 : ℤ) ≤ xs.sum := by
        apply List.sum_nonneg
        intro y hy
        exact le_trans (by norm_num) (hpos y (by simp [hy]))
      simpa using add_le_add h1 h2
  | mul =>
    rw [reduceOp_mul_eq_prod hne]
    exact List.one_le_prod hpos

/-- Appending elements `≥ 1` does not decrease the reduced value of a
non-empty list of elements `≥ 1`. -/
theorem reduceOp_le_reduceOp_append (op : Op) {l r : List ℤ} (hne : l ≠ [])
    (hl : ∀ x ∈ l, 1 ≤ x) (hr : ∀ x ∈ r, 1 ≤ x) :
    reduceOp op l ≤ reduceOp op (l ++ r) := by
  have hne' : l ++ r ≠ [] := by
    cases l with
    | nil => exact absurd rfl hne
    | cons x xs => simp
  cases op with
  | add =>
    rw [reduceOp_add_eq_sum hne, reduceOp_add_eq_sum hne', List.sum_append]
    have : (0 : ℤ) ≤ r.sum := by
      apply List.sum_nonneg
      intro y hy
      exact le_trans (by norm_num) (hr y hy)
    omega
  | mul =>
    rw [reduceOp_mul_eq_prod hne, reduceOp_mul_eq_prod hne', List.prod_append]
    have h1 : (1 : ℤ) ≤ l.prod := List.one_le_prod hl
    have h2 : (1 : ℤ) ≤ r.prod := List.one_le_prod hr
    nlinarith

/-! ## SubsetMatcher: `find_matching_subsets` (core_logic.py lines 28-40) -/

/-- `itertools.combinations l r`: all length-`r` sublists of `l`, in the
lexicographic order produced by `itertools.combinations`. -/
def combos {α : Type} : List α → ℕ → List (List α)
  | _, 0 => [[]]
  | [], _ + 1 => []
  | x :: xs, r + 1 => (combos xs r).map (x :: ·) ++ combos xs (r + 1)

theorem mem_combos {α : Type} {l : List α} {r : ℕ} {L : List α} :
    L ∈ combos l r ↔ L.Sublist l ∧ L.length = r := by
  induction l generalizing L r with
  | nil =>
    cases r with
    | zero =>
      simp only [combos, List.mem_singleton]
      constructor
      · rintro rfl; exact ⟨List.Sublist.refl _, rfl⟩
      · rintro ⟨hs, hl⟩
        exact List.length_eq_zero.mp hl
    | succ r =>
      simp only [combos, List.not_mem_nil, false_iff, not_and]
      intro hs
      have := List.sublist_nil.mp hs
      subst this
      simp
  | cons x xs ih =>
    cases r with
    | zero =>
      simp only [combos, List.mem_singleton]
      constructor
      · rintro rfl; exact ⟨List.nil_sublist _, rfl⟩
      · rintro ⟨hs, hl⟩
        exact List.length_eq_zero.mp hl
    | succ r =>
      simp only [combos, List.mem_append, List.mem_map]
      constructor
      · rintro (⟨L', hL', rfl⟩ | hL)
        · obtain ⟨hs, hl⟩ := ih.mp hL'
          exact ⟨hs.cons₂ x, by simp [hl]⟩
        · obtain ⟨hs, hl⟩ := ih.mp hL
          exact ⟨hs.cons x, hl⟩
      · rintro ⟨hs, hl⟩
        cases hs with
        | cons _ hs' => exact Or.inr (ih.mpr ⟨hs', hl⟩)
        | cons₂ _ hs' =>
          exact Or.inl ⟨_, ih.mpr ⟨hs', by simpa using hl⟩, rfl⟩

theorem nodup_combos {α : Type} [DecidableEq α] {l : List α} (hl : l.Nodup) :
    ∀ r : ℕ, (combos l r).Nodup := by
  induction l with
  | nil =>
    intro r
    cases r <;> simp [combos]
  | cons x xs ih =>
    intro r
    have hx : x ∉ xs := (List.nodup_cons.mp hl).1
    have hxs : xs.Nodup := (List.nodup_cons.mp hl).2
    cases r with
    | zero => simp [combos]
    | succ r =>
      simp only [combos]
      apply List.Nodup.append
      · exact (ih hxs r).map (fun a b h => by simpa using h)
      · exact ih hxs (r + 1)
      · intro L hL1 hL2
        obtain ⟨L', hL', rfl⟩ := List.mem_map.mp hL1
        have hs := (mem_combos.mp hL2).1
        have : x ∈ xs := hs.subset (by simp)
        exact hx this

/-- `enumerate(values)` as a list of `(index, value)` pairs. -/
def pyEnum (values : List ℤ) : List (ℕ × ℤ) :=
  (List.range values.length).map fun i => (i, values.getD i 0)

/-- `find_matching_subsets(values, target, op)` (core_logic.py lines 28-40):
all index subsets whose values reduce to `target`, as produced by iterating
`r = 1 .. len(values)` over `itertools.combinations(enumerate(values), r)`. -/
def find_matching_subsets (values : List ℤ) (target : ℤ) (op : Op) : List (Finset ℕ) :=
  (List.range values.length).flatMap fun r =>
    (combos (pyEnum values) (r + 1)).filterMap fun combo =>
      if reduceOp op (combo.map Prod.snd) = target then
        some (combo.map Prod.fst).toFinset
      else none

/-- Specification-side combined value of an index subset under the operator. -/
def subsetValue (op : Op) (values : List ℤ) (s : Finset ℕ) : ℤ :=
  match op with
  | .add => ∑ i ∈ s, values.getD i 0
  | .mul => ∏ i ∈ s, values.getD i 0

theorem reduceOp_map_getD (op : Op) (values : List ℤ) {idxs : List ℕ}
    (hne : idxs ≠ []) (hnd : idxs.Nodup) :
    reduceOp op (idxs.map (values.getD · 0)) = subsetValue op values idxs.toFinset := by
  have hmapne : idxs.map (values.getD · 0) ≠ [] := by
    simpa using hne
  cases op with
  | add =>
    rw [reduceOp_add_eq_sum hmapne, subsetValue, List.sum_toFinset _ hnd]
  | mul =>
    rw [reduceOp_mul_eq_prod hmapne, subsetValue, List.prod_toFinset _ hnd]

/-- A strictly sorted list of naturals bounded by `n` is a sublist of
`List.range n`. -/
theorem sorted_lt_sublist_range {L : List ℕ} (hs : L.Sorted (· < ·)) {n : ℕ}
    (hb : ∀ x ∈ L, x < n) : L.Sublist (List.range n) := by
  induction n generalizing L with
  | zero =>
    cases L with
    | nil => simp
    | cons a L' => exact absurd (hb a (by simp)) (by omega)
  | succ n ih =>
    by_cases hmem : n ∈ L
    · obtain ⟨A, B, rfl⟩ := List.append_of_mem hmem
      have hB : B = [] := by
        cases B with
        | nil => rfl
        | cons b B' =>
          have hlt : n < b := by
            have := (List.pairwise_append.mp hs).2.1
            exact (List.pairwise_cons.mp this).1 b (by simp)
          have hub : b < n + 1 := hb b (by simp)
          omega
      subst hB
      have hA : A.Sorted (· < ·) := (List.pairwise_append.mp hs).1
      have hAb : ∀ x ∈ A, x < n := by
        intro x hx
        exact (List.pairwise_append.mp hs).2.2 x hx n (by simp)
      rw [List.range_succ]
      exact (ih hA hAb).append (List.Sublist.refl [n])
    · have hb' : ∀ x ∈ L, x < n := by
        intro x hx
        have := hb x hx
        rcases Nat.lt_succ_iff_lt_or_eq.mp this with h | rfl
        · exact h
        · exact absurd hx hmem
      rw [List.range_succ]
      exact (ih hs hb').trans (by simp)

/-- The shape of a combination drawn from `pyEnum values`. -/
theorem combo_shape {values : List ℤ} {m : ℕ} {combo : List (ℕ × ℤ)}
    (h : combo ∈ combos (pyEnum values) m) :
    ∃ idxs : List ℕ, combo = idxs.map (fun i => (i, values.getD i 0)) ∧
      idxs.Sublist (List.range values.length) ∧ idxs.length = m := by
  obtain ⟨hs, hl⟩ := mem_combos.mp h
  rw [pyEnum] at hs
  obtain ⟨idxs, hsub, rfl⟩ := List.sublist_map_iff.mp hs
  exact ⟨idxs, rfl, hsub, by simpa using hl⟩

theorem nodup_filterMap_of_injOn {α β : Type} (f : α → Option β) {l : List α}
    (hl : l.Nodup)
    (hinj : ∀ a ∈ l, ∀ b ∈ l, ∀ c, f a = some c → f b = some c → a = b) :
    (l.filterMap f).Nodup := by
  induction l with
  | nil => simp
  | cons x xs ih =>
    have hx : x ∉ xs := (List.nodup_cons.mp hl).1
    have hxs : xs.Nodup := (List.nodup_cons.mp hl).2
    have ih' := ih hxs fun a ha b hb c h1 h2 =>
      hinj a (by simp [ha]) b (by simp [hb]) c h1 h2
    rw [List.filterMap_cons]
    cases hfx : f x with
    | none => exact ih'
    | some c =>
      refine List.nodup_cons.mpr ⟨?_, ih'⟩
      intro hc
      obtain ⟨a, ha, hfa⟩ := List.mem_filterMap.mp hc
      have : a = x := hinj a (by simp [ha]) x (by simp) c hfa hfx
      exact hx (this ▸ ha)

theorem mem_find_matching_subsets {values : List ℤ} {target : ℤ} {op : Op}
    {s : Finset ℕ} :
    s ∈ find_matching_subsets values target op ↔
      s.Nonempty ∧ (∀ i ∈ s, i < values.length) ∧ subsetValue op values s = target := by
  constructor
  · intro hmem
    obtain ⟨r, _, hchunk⟩ := List.mem_flatMap.mp hmem
    obtain ⟨combo, hcombo, hval⟩ := List.mem_filterMap.mp hchunk
    obtain ⟨idxs, rfl, hsub, hlen⟩ := combo_shape hcombo
    split at hval
    case isFalse => exact absurd hval (by simp)
    case isTrue hcond =>
      have hfst : (idxs.map (fun i => (i, values.getD i 0))).map Prod.fst = idxs := by
        simp [List.map_map, Function.comp_def]
      have hsnd : (idxs.map (fun i => (i, values.getD i 0))).map Prod.snd
          = idxs.map (values.getD · 0) := by
        simp [List.map_map, Function.comp_def]
      have hne : idxs ≠ [] := by
        intro h0
        rw [h0] at hlen
        simp at hlen
      have hnd : idxs.Nodup := hsub.nodup (List.nodup_range _)
      have hSeq : s = idxs.toFinset := by
        rw [hfst] at hval
        exact (Option.some_injective _ hval).symm
      subst hSeq
      refine ⟨?_, ?_, ?_⟩
      · cases idxs with
        | nil => exact absurd rfl hne
        | cons a t => exact ⟨a, by simp⟩
      · intro i hi
        have : i ∈ idxs := List.mem_toFinset.mp hi
        exact List.mem_range.mp (hsub.subset this)
      · rw [← reduceOp_map_getD op values hne hnd, ← hsnd]
        exact hcond
  · rintro ⟨hne, hbnd, hval⟩
    set n := values.length with hn
    set idxs := Finset.sort (· ≤ ·) s with hidxs
    have hsorted : idxs.Sorted (· < ·) := Finset.sort_sorted_lt s
    have hb : ∀ x ∈ idxs, x < n := fun x hx => hbnd x (Finset.mem_sort _ |>.mp hx)
    have hsub : idxs.Sublist (List.range n) := sorted_lt_sublist_range hsorted hb
    have hlen : idxs.length = s.card := Finset.length_sort _
    have htf : idxs.toFinset = s := Finset.sort_toFinset _ s
    have hcard1 : 1 ≤ s.card := Finset.card_pos.mpr hne
    have hcardn : s.card ≤ n := by
      have hss : s ⊆ Finset.range n := fun i hi => Finset.mem_range.mpr (hbnd i hi)
      simpa using Finset.card_le_card hss
    have hidne : idxs ≠ [] := by
      intro h0
      rw [h0] at hlen
      simp at hlen
      omega
    have hnd : idxs.Nodup := Finset.sort_nodup _ s
    refine List.mem_flatMap.mpr ⟨s.card - 1, List.mem_range.mpr (by omega), ?_⟩
    refine List.mem_filterMap.mpr
      ⟨idxs.map (fun i => (i, values.getD i 0)), ?_, ?_⟩
    · refine mem_combos.mpr ⟨?_, ?_⟩
      · rw [pyEnum]
        exact hsub.map _
      · simp [hlen]
        omega
    · have hfst : (idxs.map (fun i => (i, values.getD i 0))).map Prod.fst = idxs := by
        simp [List.map_map, Function.comp_def]
      have hsnd : (idxs.map (fun i => (i, values.getD i 0))).map Prod.snd
          = idxs.map (values.getD · 0) := by
        simp [List.map_map, Function.comp_def]
      rw [hfst, hsnd, reduceOp_map_getD op values hidne hnd, htf, if_pos hval]

theorem nodup_find_matching_subsets (values : List ℤ) (target : ℤ) (op : Op) :
    (find_matching_subsets values target op).Nodup := by
  rw [find_matching_subsets]
  apply List.nodup_flatMap.mpr
  have hEnumNodup : (pyEnum values).Nodup := by
    rw [pyEnum]
    exact (List.nodup_range _).map fun a b h => by simpa using congrArg Prod.fst h
  have hcard : ∀ r : ℕ, ∀ s : Finset ℕ,
      s ∈ (combos (pyEnum values) (r + 1)).filterMap (fun combo =>
        if reduceOp op (combo.map Prod.snd) = target then
          some ((combo.map Prod.fst).toFinset) else none) → s.card = r + 1 := by
    intro r s hs
    obtain ⟨combo, hcombo, hval⟩ := List.mem_filterMap.mp hs
    obtain ⟨idxs, rfl, hsub, hlen⟩ := combo_shape hcombo
    split at hval
    case isFalse => exact absurd hval (by simp)
    case isTrue =>
      have hfst : (idxs.map (fun i => (i, values.getD i 0))).map Prod.fst = idxs := by
        simp [List.map_map, Function.comp_def]
      rw [hfst] at hval
      have hnd : idxs.Nodup := hsub.nodup (List.nodup_range _)
      rw [← Option.some_injective _ hval, List.toFinset_card_of_nodup hnd, hlen]
  constructor
  · intro r _
    apply nodup_filterMap_of_injOn _ (nodup_combos hEnumNodup (r + 1))
    intro a ha b hb c h1 h2
    obtain ⟨ia, rfl, hsa, hla⟩ := combo_shape ha
    obtain ⟨ib, rfl, hsb, hlb⟩ := combo_shape hb
    split at h1
    case isFalse => exact absurd h1 (by simp)
    case isTrue =>
      split at h2
      case isFalse => exact absurd h2 (by simp)
      case isTrue =>
        have hfa : (ia.map (fun i => (i, values.getD i 0))).map Prod.fst = ia := by
          simp [List.map_map, Function.comp_def]
        have hfb : (ib.map (fun i => (i, values.getD i 0))).map Prod.fst = ib := by
          simp [List.map_map, Function.comp_def]
        rw [hfa] at h1
        rw [hfb] at h2
        have htf : ia.toFinset = ib.toFinset := by
          rw [Option.some_injective _ h1, ← Option.some_injective _ h2]
        have hna : ia.Nodup := hsa.nodup (List.nodup_range _)
        have hnb : ib.Nodup := hsb.nodup (List.nodup_range _)
        have hperm := List.perm_of_nodup_nodup_toFinset_eq hna hnb htf
        have hsla : ia.Sorted (· < ·) :=
          (List.pairwise_lt_range _).sublist hsa
        have hslb : ib.Sorted (· < ·) :=
          (List.pairwise_lt_range _).sublist hsb
        have : ia = ib :=
          List.eq_of_perm_of_sorted hperm hsla.le_of_lt hslb.le_of_lt
        rw [this]
  · apply (List.pairwise_lt_range _).imp
    intro r1 r2 hlt
    simp only [Function.onFun]
    intro s hs1 hs2
    have h1 := hcard r1 s hs1
    have h2 := hcard r2 s hs2
    omega

/-- C4: `find_matching_subsets` returns exactly the non-empty index subsets
whose values combine under the operator to the target — soundness,
completeness, no duplicates — and on `values=[1,2,3]`, `target=6`, `op=SUM`
the result is exactly `{{0,1,2}}`. -/
theorem find_matching_subsets_exact :
    (∀ (values : List ℤ) (target : ℤ) (op : Op),
      (find_matching_subsets values target op).Nodup ∧
      ∀ s : Finset ℕ, s ∈ find_matching_subsets values target op ↔
        s.Nonempty ∧ (∀ i ∈ s, i < values.length) ∧ subsetValue op values s = target) ∧
    find_matching_subsets [1, 2, 3] 6 .add = [{0, 1, 2}] := by
  refine ⟨fun values target op =>
    ⟨nodup_find_matching_subsets values target op, fun s => mem_find_matching_subsets⟩, ?_⟩
  decide

/-! ## ConstraintValidator (core_logic.py lines 42-83) -/

/-- A selection mask: grid of 0/1 rows. -/
abbrev Mask := List (List ℕ)

/-- The per-column list `[board[r][col] for r in range(rows) if grid[r][col] == 1]`. -/
def colValues (grid : Mask) (board : List (List ℤ)) (rows : ℕ) (col : ℕ) : List ℤ :=
  (List.range rows).filterMap fun r =>
    if (grid.getD r []).getD col 0 = 1 then some ((board.getD r []).getD col 0) else none

/-- `is_partial_valid_columns(grid, row_idx, board, target_cols, op)`
(core_logic.py lines 42-60); validates columns over rows `0..row_idx`,
rejecting a column whose combined marked value already exceeds its target or
is `0` under PRODUCT with a nonzero target. -/
def isPartialValidColumns (grid : Mask) (row_idx : ℕ) (board : List (List ℤ))
    (target_cols : List ℤ) (op : Op) : Bool :=
  (List.range (grid.headD []).length).all fun col =>
    let values := colValues grid board (row_idx + 1) col
    if values = [] then true
    else
      let result := reduceOp op values
      if result > target_cols.getD col 0 then false
      else if op = .mul ∧ result = 0 ∧ target_cols.getD col 0 ≠ 0 then false
      else true

/-- `is_valid_columns(grid, board, target_cols, op)` (core_logic.py lines
62-77): every column has at least one marked cell and combines exactly to its
target. -/
def is_valid_columns (grid : Mask) (board : List (List ℤ))
    (target_cols : List ℤ) (op : Op) : Bool :=
  (List.range (grid.headD []).length).all fun col =>
    let values := colValues grid board board.length col
    if values = [] then false
    else
      if reduceOp op values ≠ target_cols.getD col 0 then false
      else true

/-- `count_marked(grid)` (core_logic.py lines 79-83). -/
def count_marked (grid : Mask) : ℕ :=
  (grid.map List.sum).sum

theorem mem_colValues {grid : Mask} {board : List (List ℤ)} {rows col : ℕ}
    {x : ℤ} (hx : x ∈ colValues grid board rows col) :
    ∃ r < rows, (grid.getD r []).getD col 0 = 1 ∧ x = (board.getD r []).getD col 0 := by
  obtain ⟨r, hr, hval⟩ := List.mem_filterMap.mp hx
  refine ⟨r, List.mem_range.mp hr, ?_, ?_⟩
  · by_contra h
    rw [if_neg h] at hval
    exact absurd hval (by simp)
  · split at hval
    · exact (Option.some_injective _ hval).symm
    · exact absurd hval (by simp)

theorem colValues_mono {grid : Mask} {board : List (List ℤ)} {col : ℕ}
    {k1 k2 : ℕ} (h : k1 ≤ k2) :
    ∃ t, colValues grid board k2 col = colValues grid board k1 col ++ t ∧
      ∀ x ∈ t, ∃ r, k1 ≤ r ∧ r < k2 ∧ (grid.getD r []).getD col 0 = 1 ∧
        x = (board.getD r []).getD col 0 := by
  obtain ⟨d, rfl⟩ := Nat.exists_eq_add_of_le h
  refine ⟨(List.map (k1 + ·) (List.range d)).filterMap fun r =>
    if (grid.getD r []).getD col 0 = 1 then some ((board.getD r []).getD col 0)
    else none, ?_, ?_⟩
  · rw [colValues, colValues, List.range_add, List.filterMap_append]
  · intro x hx
    obtain ⟨r, hr, hval⟩ := List.mem_filterMap.mp hx
    obtain ⟨j, hj, rfl⟩ := List.mem_map.mp hr
    have hjd := List.mem_range.mp hj
    refine ⟨k1 + j, by omega, by omega, ?_, ?_⟩
    · by_contra hmark
      rw [if_neg hmark] at hval
      exact absurd hval (by simp)
    · split at hval
      · exact (Option.some_injective _ hval).symm
      · exact absurd hval (by simp)

/-- Marked cells beyond the grid length contribute nothing. -/
theorem no_mark_beyond {grid : Mask} {r col : ℕ} (h : grid.length ≤ r) :
    (grid.getD r []).getD col 0 ≠ 1 := by
  have hrow : grid.getD r [] = [] := by
    rw [List.getD_eq_getElem?_getD, List.getElem?_eq_none h]
    rfl
  rw [hrow]
  simp

/-- Core pruning-soundness lemma: a complete assignment that passes the full
column check, over a board whose *marked* cells are all `≥ 1`, passes the
partial column check at every row index. -/
theorem isPartial_of_is_valid {grid : Mask} {board : List (List ℤ)}
    {target_cols : List ℤ} {op : Op}
    (hglen : grid.length = board.length)
    (hpos : ∀ r c, r < board.length → c < (grid.headD []).length →
      (grid.getD r []).getD c 0 = 1 → 1 ≤ (board.getD r []).getD c 0)
    (hvalid : is_valid_columns grid board target_cols op = true) :
    ∀ i, isPartialValidColumns grid i board target_cols op = true := by
  intro i
  rw [isPartialValidColumns, List.all_eq_true]
  intro col hcolmem
  have hcol : col < (grid.headD []).length := List.mem_range.mp hcolmem
  -- facts from the full check at this column
  rw [is_valid_columns, List.all_eq_true] at hvalid
  have hfull := hvalid col hcolmem
  simp only at hfull
  set fullVals := colValues grid board board.length col with hfv
  have hfne : fullVals ≠ [] := by
    intro h0
    rw [if_pos h0] at hfull
    exact absurd hfull (by simp)
  have hftgt : reduceOp op fullVals = target_cols.getD col 0 := by
    rw [if_neg hfne] at hfull
    by_contra hne
    rw [if_pos hne] at hfull
    exact absurd hfull (by simp)
  have hposVals : ∀ k, ∀ x ∈ colValues grid board k col, 1 ≤ x := by
    intro k x hx
    obtain ⟨r, _, hmark, rfl⟩ := mem_colValues hx
    have hrb : r < board.length := by
      by_contra hge
      exact no_mark_beyond (by omega : grid.length ≤ r) hmark
    exact hpos r col hrb hcol hmark
  -- compare the partial value list with the full one
  simp only
  set pVals := colValues grid board (i + 1) col with hpv
  by_cases hpe : pVals = []
  · rw [if_pos hpe]
  · rw [if_neg hpe]
    have hle : reduceOp op pVals ≤ reduceOp op fullVals := by
      rcases le_or_lt (i + 1) board.length with hc | hc
      · obtain ⟨t, ht, htmem⟩ := @colValues_mono grid board col _ _ hc
        rw [hfv, ht]
        apply reduceOp_le_reduceOp_append op hpe (hposVals _)
        intro x hx
        obtain ⟨r, _, _, hmark, rfl⟩ := htmem x hx
        have hrb : r < board.length := by
          by_contra hge
          exact no_mark_beyond (by omega : grid.length ≤ r) hmark
        exact hpos r col hrb hcol hmark
      · obtain ⟨t, ht, htmem⟩ := @colValues_mono grid board col _ _ (le_of_lt hc)
        have ht0 : t = [] := by
          rcases t with _ | ⟨x, t'⟩
          · rfl
          · obtain ⟨r, hr1, _, hmark, _⟩ := htmem x (by simp)
            exact absurd hmark (no_mark_beyond (by omega))
        rw [hpv, ht, ht0, List.append_nil]
      
    have h1 : 1 ≤ reduceOp op pVals := one_le_reduceOp op hpe (hposVals _)
    rw [if_neg (by omega : ¬ reduceOp op pVals > target_cols.getD col 0)]
    · rw [if_neg]
      rintro ⟨_, h0, _⟩
      omega

/-! ## MinimalSolver (core_logic.py lines 85-105, main.py lines 78-106,
manual_input.py lines 116-168) -/

/-- One strictly-smaller update of the caller-owned accumulator
`best_solution` (`marked < best_solution[0]`, with `none` standing for the
initial `[float("inf"), None]`). -/
def updateBest (best : Option (ℕ × Mask)) (grid : Mask) : Option (ℕ × Mask) :=
  match best with
  | none => some (count_marked grid, grid)
  | some (b, g) =>
      if count_marked grid < b then some (count_marked grid, grid) else some (b, g)

/-- `new_row = [1 if i in row_option else 0 for i in range(cols)]`. -/
def maskRow (row_option : Finset ℕ) (cols : ℕ) : List ℕ :=
  (List.range cols).map fun i => if i ∈ row_option then 1 else 0

/-- All complete mask choices below a list of per-row candidate sets, in
depth-first search order. -/
def assignments (cols : ℕ) : List (List (Finset ℕ)) → List Mask
  | [] => [[]]
  | ps :: rest => ps.flatMap fun o => (assignments cols rest).map (maskRow o cols :: ·)

/-- `solve_minimal` (core_logic.py lines 85-105) with the committed prefix of
mask rows as the grid state: `rest` is `row_possibilities[row_idx:]`, `pre`
is rows `0..row_idx-1` of the grid (the rows at or past `row_idx` are never
read before being rewritten), and `row_idx = pre.length`. -/
def solveRows (board : List (List ℤ)) (target_cols : List ℤ) (op : Op) (cols : ℕ) :
    List (List (Finset ℕ)) → Mask → Option (ℕ × Mask) → Option (ℕ × Mask)
  | [] => fun pre best =>
      if is_valid_columns pre board target_cols op then updateBest best pre else best
  | ps :: rest =>
      let f := solveRows board target_cols op cols rest
      fun pre best =>
        ps.foldl (fun b row_option =>
          let new_row := maskRow row_option cols
          if isPartialValidColumns (pre ++ [new_row]) pre.length board target_cols op then
            f (pre ++ [new_row]) b
          else b) best

/-- `solve_and_collect` (main.py lines 78-97): the same traversal, updating
the best accumulator and appending every valid complete mask. -/
def collectRows (board : List (List ℤ)) (target_cols : List ℤ) (op : Op) (cols : ℕ) :
    List (List (Finset ℕ)) → Mask → Option (ℕ × Mask) × List Mask →
      Option (ℕ × Mask) × List Mask
  | [] => fun pre acc =>
      if is_valid_columns pre board target_cols op then
        (updateBest acc.1 pre, acc.2 ++ [pre])
      else acc
  | ps :: rest =>
      let f := collectRows board target_cols op cols rest
      fun pre acc =>
        ps.foldl (fun a row_option =>
          let new_row := maskRow row_option cols
          if isPartialValidColumns (pre ++ [new_row]) pre.length board target_cols op then
            f (pre ++ [new_row]) a
          else a) acc

/-- The valid complete masks reached by the pruned depth-first traversal, in
discovery order. -/
def pathSols (board : List (List ℤ)) (target_cols : List ℤ) (op : Op) (cols : ℕ) :
    List (List (Finset ℕ)) → Mask → List Mask
  | [] => fun pre =>
      if is_valid_columns pre board target_cols op then [pre] else []
  | ps :: rest =>
      let f := pathSols board target_cols op cols rest
      fun pre =>
        ps.flatMap fun row_option =>
          let new_row := maskRow row_option cols
          if isPartialValidColumns (pre ++ [new_row]) pre.length board target_cols op then
            f (pre ++ [new_row])
          else []

theorem foldl_flatMap_eq {α β γ : Type} (l : List α) (g : α → List β)
    (f : γ → β → γ) (init : γ) :
    (l.flatMap g).foldl f init = l.foldl (fun acc x => (g x).foldl f acc) init := by
  induction l generalizing init with
  | nil => simp
  | cons x xs ih => simp [List.foldl_append, ih]

theorem foldl_ext_mem {α β : Type} {f g : β → α → β} {l : List α}
    (h : ∀ b, ∀ a ∈ l, f b a = g b a) :
    ∀ init, l.foldl f init = l.foldl g init := by
  induction l with
  | nil => intro init; rfl
  | cons x xs ih =>
    intro init
    rw [List.foldl_cons, List.foldl_cons, h init x (by simp)]
    exact ih (fun b a ha => h b a (by simp [ha])) _

theorem solveRows_eq_foldl (board : List (List ℤ)) (target_cols : List ℤ)
    (op : Op) (cols : ℕ) :
    ∀ (rest : List (List (Finset ℕ))) (pre : Mask) (best : Option (ℕ × Mask)),
      solveRows board target_cols op cols rest pre best =
        (pathSols board target_cols op cols rest pre).foldl updateBest best := by
  intro rest
  induction rest with
  | nil =>
    intro pre best
    rw [solveRows, pathSols]
    by_cases h : is_valid_columns pre board target_cols op = true
    · simp [h]
    · simp [h]
  | cons ps rest ih =>
    intro pre best
    rw [solveRows, pathSols, foldl_flatMap_eq]
    apply foldl_ext_mem
    intro b o _
    simp only
    split
    · exact ih _ b
    · rfl

theorem foldl_pair_split {α A β : Type}
    (F : A × List β → α → A × List β) (G : A → α → A) (H : α → List β)
    (hF : ∀ acc a, F acc a = (G acc.1 a, acc.2 ++ H a)) :
    ∀ (l : List α) (acc : A × List β),
      l.foldl F acc = (l.foldl G acc.1, acc.2 ++ l.flatMap H) := by
  intro l
  induction l with
  | nil =>
    intro acc
    simp
  | cons x xs ih =>
    intro acc
    rw [List.foldl_cons, ih, hF]
    simp [List.foldl_cons, List.append_assoc]

theorem collectRows_eq (board : List (List ℤ)) (target_cols : List ℤ)
    (op : Op) (cols : ℕ) :
    ∀ (rest : List (List (Finset ℕ))) (pre : Mask)
      (acc : Option (ℕ × Mask) × List Mask),
      collectRows board target_cols op cols rest pre acc =
        (solveRows board target_cols op cols rest pre acc.1,
         acc.2 ++ pathSols board target_cols op cols rest pre) := by
  intro rest
  induction rest with
  | nil =>
    intro pre acc
    rw [collectRows, solveRows, pathSols]
    by_cases h : is_valid_columns pre board target_cols op = true
    · simp [h]
    · simp [h]
  | cons ps rest ih =>
    intro pre acc
    rw [collectRows, solveRows, pathSols]
    simp only
    have hsplit := foldl_pair_split
      (fun (a : Option (ℕ × Mask) × List Mask) row_option =>
        if isPartialValidColumns (pre ++ [maskRow row_option cols]) pre.length board
            target_cols op = true then
          collectRows board target_cols op cols rest (pre ++ [maskRow row_option cols]) a
        else a)
      (fun b row_option =>
        if isPartialValidColumns (pre ++ [maskRow row_option cols]) pre.length board
            target_cols op = true then
          solveRows board target_cols op cols rest (pre ++ [maskRow row_option cols]) b
        else b)
      (fun row_option =>
        if isPartialValidColumns (pre ++ [maskRow row_option cols]) pre.length board
            target_cols op = true then
          pathSols board target_cols op cols rest (pre ++ [maskRow row_option cols])
        else [])
      (by
        intro acc' o
        simp only
        split
        · exact ih _ _
        · simp)
      ps acc
    rw [hsplit]

/-- Compare a candidate mask with the running first-minimum (ties kept by the
earlier mask). -/
def bestOf (g : Mask) : Option (ℕ × Mask) → Option (ℕ × Mask)
  | none => some (count_marked g, g)
  | some (m, g') =>
      if count_marked g ≤ m then some (count_marked g, g) else some (m, g')

/-- The first mask of minimal `count_marked` in a list, with its count. -/
def firstMin : List Mask → Option (ℕ × Mask)
  | [] => none
  | g :: gs => bestOf g (firstMin gs)

/-- Merge an accumulator with the first-minimum of a further list, keeping
the accumulator on ties. -/
def mergeBest : Option (ℕ × Mask) → Option (ℕ × Mask) → Option (ℕ × Mask)
  | acc, none => acc
  | none, some (m, g) => some (m, g)
  | some (m0, g0), some (m, g) =>
      if m < m0 then some (m, g) else some (m0, g0)

theorem foldl_updateBest_eq (l : List Mask) :
    ∀ acc, l.foldl updateBest acc = mergeBest acc (firstMin l) := by
  induction l with
  | nil =>
    intro acc
    cases acc <;> rfl
  | cons g gs ih =>
    intro acc
    rw [List.foldl_cons, ih, firstMin]
    rcases hgs : firstMin gs with _ | ⟨m, g'⟩ <;>
      rcases acc with _ | ⟨m0, g0⟩ <;>
        simp only [bestOf, mergeBest, updateBest] <;>
          split_ifs <;> first | rfl | omega | (simp only [mergeBest] ; split_ifs <;> first | rfl | omega)

theorem firstMin_eq_none_iff (l : List Mask) : firstMin l = none ↔ l = [] := by
  cases l with
  | nil => simp [firstMin]
  | cons g gs =>
    simp only [firstMin]
    constructor
    · intro h
      rcases hgs : firstMin gs with _ | ⟨m, g'⟩ <;> rw [hgs] at h
      · exact absurd h (by simp [bestOf])
      · rw [bestOf] at h
        split at h
        · exact absurd h (by simp)
        · exact absurd h (by simp)
    · intro h
      exact absurd h (by simp)

theorem firstMin_spec (l : List Mask) :
    ∀ m g, firstMin l = some (m, g) →
      g ∈ l ∧ m = count_marked g ∧ (∀ x ∈ l, m ≤ count_marked x) ∧
        l.find? (fun x => count_marked x ≤ m) = some g := by
  induction l with
  | nil =>
    intro m g h
    exact absurd h (by simp [firstMin])
  | cons y ys ih =>
    intro m g h
    rw [firstMin] at h
    rcases hgs : firstMin ys with _ | ⟨m', g'⟩ <;> rw [hgs] at h
    · rw [bestOf] at h
      have hys : ys = [] := (firstMin_eq_none_iff ys).mp hgs
      have hm : m = count_marked y := (congrArg Prod.fst (Option.some_injective _ h)).symm
      have hg : g = y := (congrArg Prod.snd (Option.some_injective _ h)).symm
      subst hm
      subst hg
      subst hys
      refine ⟨by simp, rfl, ?_, ?_⟩
      · intro x hx
        rcases List.mem_singleton.mp hx with rfl
        rfl
      · rw [List.find?_cons_of_pos _ (by simp)]
    · rw [bestOf] at h
      obtain ⟨hmem', hcnt', hmin', hfind'⟩ := ih m' g' hgs
      by_cases hle : count_marked y ≤ m'
      · rw [if_pos hle] at h
        have hm : m = count_marked y := (congrArg Prod.fst (Option.some_injective _ h)).symm
        have hg : g = y := (congrArg Prod.snd (Option.some_injective _ h)).symm
        subst hm
        subst hg
        refine ⟨by simp, rfl, ?_, ?_⟩
        · intro x hx
          rcases List.mem_cons.mp hx with rfl | hx'
          · rfl
          · exact le_trans hle (hmin' x hx')
        · rw [List.find?_cons_of_pos _ (by simp)]
      · rw [if_neg hle] at h
        have hm : m = m' := (congrArg Prod.fst (Option.some_injective _ h)).symm
        have hg : g = g' := (congrArg Prod.snd (Option.some_injective _ h)).symm
        subst hm
        subst hg
        refine ⟨by simp [hmem'], hcnt', ?_, ?_⟩
        · intro x hx
          rcases List.mem_cons.mp hx with rfl | hx'
          · omega
          · exact hmin' x hx'
        · rw [List.find?_cons_of_neg _ (by simpa using hle)]
          exact hfind'

theorem mem_assignments {cols : ℕ} :
    ∀ {rest : List (List (Finset ℕ))} {t : Mask},
      t ∈ assignments cols rest ↔
        List.Forall₂ (fun ps row => ∃ o ∈ ps, row = maskRow o cols) rest t := by
  intro rest
  induction rest with
  | nil =>
    intro t
    simp [assignments, List.forall₂_nil_left_iff]
  | cons ps rest ih =>
    intro t
    simp only [assignments, List.mem_flatMap, List.mem_map]
    constructor
    · rintro ⟨o, ho, t', ht', rfl⟩
      exact List.Forall₂.cons ⟨o, ho, rfl⟩ (ih.mp ht')
    · intro h
      cases h with
      | cons hr htail =>
        obtain ⟨o, ho, rfl⟩ := hr
        exact ⟨o, ho, _, ih.mpr htail, rfl⟩

theorem assignments_length {cols : ℕ} {rest : List (List (Finset ℕ))} {t : Mask}
    (h : t ∈ assignments cols rest) : t.length = rest.length :=
  (mem_assignments.mp h).length_eq.symm

theorem assignments_rows {cols : ℕ} {rest : List (List (Finset ℕ))} {t : Mask}
    (h : t ∈ assignments cols rest) : ∀ row ∈ t, row.length = cols := by
  have h2 := mem_assignments.mp h
  clear h
  induction h2 with
  | nil =>
    intro row hrow
    exact absurd hrow (by simp)
  | cons hr _ ih =>
    intro row hrow
    rcases List.mem_cons.mp hrow with rfl | h'
    · obtain ⟨o, _, hrw⟩ := hr
      rw [hrw]
      simp [maskRow]
    · exact ih row h'

theorem colValues_append_left {p t : Mask} {board : List (List ℤ)} {rows col : ℕ}
    (h : rows ≤ p.length) :
    colValues (p ++ t) board rows col = colValues p board rows col := by
  rw [colValues, colValues]
  apply List.filterMap_congr
  intro r hr
  have hrp : r < p.length := lt_of_lt_of_le (List.mem_range.mp hr) h
  rw [List.getD_append _ _ _ _ hrp]

theorem isPartial_append (board : List (List ℤ)) (tc : List ℤ) (op : Op)
    {p : Mask} (t : Mask) {i : ℕ} (hi : i < p.length) :
    isPartialValidColumns (p ++ t) i board tc op =
      isPartialValidColumns p i board tc op := by
  have hpne : p ≠ [] := by
    intro h0
    rw [h0] at hi
    simp at hi
  have hhead : (p ++ t).headD [] = p.headD [] := by
    cases p with
    | nil => exact absurd rfl hpne
    | cons a p' => rfl
  rw [isPartialValidColumns, isPartialValidColumns, hhead]
  congr 1
  funext col
  rw [colValues_append_left (by omega)]

theorem pathSols_shape (board : List (List ℤ)) (tc : List ℤ) (op : Op) (cols : ℕ) :
    ∀ (rest : List (List (Finset ℕ))) (pre g : Mask),
      g ∈ pathSols board tc op cols rest pre →
      ∃ tail, tail ∈ assignments cols rest ∧ g = pre ++ tail ∧
        is_valid_columns g board tc op = true := by
  intro rest
  induction rest with
  | nil =>
    intro pre g hg
    simp only [pathSols] at hg
    split at hg
    case isTrue hvalid =>
      rcases List.mem_singleton.mp hg with rfl
      exact ⟨[], by simp [assignments], by simp, hvalid⟩
    case isFalse =>
      exact absurd hg (by simp)
  | cons ps rest ih =>
    intro pre g hg
    simp only [pathSols, List.mem_flatMap] at hg
    obtain ⟨o, ho, hg2⟩ := hg
    split at hg2
    case isTrue hcheck =>
      obtain ⟨tail', htail', hgeq, hvalid⟩ := ih (pre ++ [maskRow o cols]) g hg2
      refine ⟨maskRow o cols :: tail', ?_, ?_, hvalid⟩
      · rw [assignments]
        exact List.mem_flatMap.mpr ⟨o, ho, List.mem_map.mpr ⟨tail', htail', rfl⟩⟩
      · rw [hgeq]
        simp
    case isFalse =>
      exact absurd hg2 (by simp)

theorem mem_pathSols_of_valid (board : List (List ℤ)) (tc : List ℤ) (op : Op) (cols : ℕ) :
    ∀ (rest : List (List (Finset ℕ))) (pre tail : Mask),
      tail ∈ assignments cols rest →
      (∀ i, isPartialValidColumns (pre ++ tail) i board tc op = true) →
      is_valid_columns (pre ++ tail) board tc op = true →
      pre ++ tail ∈ pathSols board tc op cols rest pre := by
  intro rest
  induction rest with
  | nil =>
    intro pre tail htail hpart hvalid
    have ht0 : tail = [] := by simpa [assignments] using htail
    subst ht0
    rw [List.append_nil] at hvalid ⊢
    simp only [pathSols]
    rw [if_pos hvalid]
    simp
  | cons ps rest ih =>
    intro pre tail htail hpart hvalid
    rw [assignments] at htail
    obtain ⟨o, ho, hmem2⟩ := List.mem_flatMap.mp htail
    obtain ⟨tail', htail', rfl⟩ := List.mem_map.mp hmem2
    have hassoc : pre ++ (maskRow o cols :: tail') = (pre ++ [maskRow o cols]) ++ tail' := by
      simp
    have hcheck : isPartialValidColumns (pre ++ [maskRow o cols]) pre.length board tc op
        = true := by
      have h1 := hpart pre.length
      rw [hassoc, isPartial_append board tc op tail' (by simp)] at h1
      exact h1
    simp only [pathSols]
    refine List.mem_flatMap.mpr ⟨o, ho, ?_⟩
    simp only [if_pos hcheck]
    rw [hassoc]
    refine ih (pre ++ [maskRow o cols]) tail' htail' ?_ ?_
    · intro i
      have := hpart i
      rw [hassoc] at this
      exact this
    · rw [← hassoc]
      exact hvalid

theorem filter_flatMap_eq {α β : Type} (l : List α) (g : α → List β) (p : β → Bool) :
    (l.flatMap g).filter p = l.flatMap fun a => (g a).filter p := by
  induction l with
  | nil => simp
  | cons x xs ih => simp [List.filter_append, ih]

theorem flatMap_congr_mem {α β : Type} {l : List α} {f g : α → List β}
    (h : ∀ a ∈ l, f a = g a) : l.flatMap f = l.flatMap g := by
  induction l with
  | nil => simp
  | cons x xs ih =>
    simp only [List.flatMap_cons]
    rw [h x (by simp), ih fun a ha => h a (by simp [ha])]

/-- With a board of positive cells, the pruned traversal reaches exactly the
column-valid members of the full per-row candidate product, in the same
order: the partial check never discards a subtree containing a valid
complete assignment. -/
theorem pathSols_eq_filter (board : List (List ℤ)) (tc : List ℤ) (op : Op) (cols : ℕ)
    (hb : ∀ r c, r < board.length → c < cols → 1 ≤ (board.getD r []).getD c 0) :
    ∀ (rest : List (List (Finset ℕ))) (pre : Mask),
      pre.length + rest.length = board.length →
      (∀ row ∈ pre, row.length = cols) →
      pathSols board tc op cols rest pre =
        ((assignments cols rest).map (pre ++ ·)).filter
          (fun g => is_valid_columns g board tc op) := by
  intro rest
  induction rest with
  | nil =>
    intro pre hlen hrows
    simp only [pathSols, assignments]
    by_cases h : is_valid_columns pre board tc op = true
    · simp [h]
    · simp [h]
  | cons ps rest ih =>
    intro pre hlen hrows
    simp only [List.length_cons] at hlen
    simp only [pathSols, assignments]
    rw [List.map_flatMap, filter_flatMap_eq]
    apply flatMap_congr_mem
    intro o ho
    simp only [List.map_map]
    have hcomp : ((pre ++ ·) ∘ (maskRow o cols :: ·)) =
        fun t => (pre ++ [maskRow o cols]) ++ t := by
      funext t
      simp
    rw [hcomp]
    split
    case isTrue hcheck =>
      rw [ih (pre ++ [maskRow o cols])
        (by simp only [List.length_append, List.length_cons, List.length_nil]; omega) ?hrows2]
      case hrows2 =>
        intro row hrow
        rcases List.mem_append.mp hrow with h' | h'
        · exact hrows row h'
        · rcases List.mem_singleton.mp h' with rfl
          simp [maskRow]
    case isFalse hcheck =>
      symm
      rw [List.filter_eq_nil_iff]
      intro g hg
      obtain ⟨t, ht, rfl⟩ := List.mem_map.mp hg
      intro hvalid
      -- a fully valid completion would have passed the partial check
      have htlen : t.length = rest.length := assignments_length ht
      have hglen : ((pre ++ [maskRow o cols]) ++ t).length = board.length := by
        simp only [List.length_append, List.length_cons, List.length_nil]
        omega
      have hheadlen : (((pre ++ [maskRow o cols]) ++ t).headD []).length = cols := by
        cases pre with
        | nil => simp [maskRow]
        | cons a p' =>
          have : a.length = cols := hrows a (by simp)
          simpa using this
      have hpart := isPartial_of_is_valid hglen ?hpos hvalid pre.length
      case hpos =>
        intro r c hr hc _
        rw [hheadlen] at hc
        exact hb r c hr hc
      rw [isPartial_append board tc op t (by simp)] at hpart
      exact absurd hpart (by simpa using hcheck)

/-- C3: over a board whose cell values are all at least 1, every complete row
assignment that passes the full column check also passes
`is_partial_valid_columns` at every row index — so the partial-check pruning
never discards a subtree containing a valid complete assignment. -/
theorem partial_check_sound (board : List (List ℤ)) (target_cols : List ℤ) (op : Op)
    (grid : Mask)
    (hpos : ∀ row ∈ board, ∀ x ∈ row, 1 ≤ x)
    (hglen : grid.length = board.length)
    (hwidth : ∀ row ∈ board, (grid.headD []).length ≤ row.length)
    (hvalid : is_valid_columns grid board target_cols op = true) :
    ∀ i, isPartialValidColumns grid i board target_cols op = true := by
  apply isPartial_of_is_valid hglen ?_ hvalid
  intro r c hr hc _
  have hrow : board.getD r [] ∈ board := by
    rw [List.getD_eq_getElem _ _ hr]
    exact List.getElem_mem _
  have hcw : c < (board.getD r []).length := lt_of_lt_of_le hc (hwidth _ hrow)
  have hcell : (board.getD r []).getD c 0 ∈ board.getD r [] := by
    rw [List.getD_eq_getElem _ _ hcw]
    exact List.getElem_mem _
  exact hpos _ hrow _ hcell

/-- Witness for C3 at a concrete instance. -/
theorem partial_check_sound_witness :
    isPartialValidColumns [[1, 1], [1, 1]] 0 [[2, 2], [2, 2]] [4, 4] .add = true :=
  partial_check_sound [[2, 2], [2, 2]] [4, 4] .add [[1, 1], [1, 1]]
    (by decide) (by decide) (by decide) (by decide) 0

/-- `row_possibilities` as computed by every caller of the solver
(main.py lines 69-72, 130-133; manual_input.py lines 132-135). -/
def rowPossibilities (board : List (List ℤ)) (target_rows : List ℤ) (op : Op) :
    List (List (Finset ℕ)) :=
  (board.zip target_rows).map fun rt => find_matching_subsets rt.1 rt.2 op

/-- `solve_minimal(grid, row_idx, board, target_rows, target_cols, op,
row_possibilities, best_solution)` (core_logic.py lines 85-105) as invoked by
its callers: empty grid, `row_idx = 0`.  The grid is the committed prefix of
rows (empty at the root), `target_rows` is passed but never read (as in the
source), and the accumulator is threaded through the recursion. -/
def solve_minimal (board : List (List ℤ)) (target_rows target_cols : List ℤ)
    (op : Op) (row_possibilities : List (List (Finset ℕ)))
    (best_solution : Option (ℕ × Mask)) : Option (ℕ × Mask) :=
  solveRows board target_cols op (board.headD []).length row_possibilities [] best_solution

/-- The valid complete assignments below the per-row candidate sets, in
depth-first search order. -/
def validAssignments (board : List (List ℤ)) (target_rows target_cols : List ℤ)
    (op : Op) : List Mask :=
  (assignments board.length (rowPossibilities board target_rows op)).filter
    (fun g => is_valid_columns g board target_cols op)

theorem mergeBest_none : ∀ r : Option (ℕ × Mask), mergeBest none r = r := by
  intro r
  rcases r with _ | ⟨m, g⟩
  · rfl
  · rfl

theorem solve_minimal_run (board : List (List ℤ)) (target_rows target_cols : List ℤ)
    (op : Op)
    (hsq : ∀ row ∈ board, row.length = board.length)
    (hrt : target_rows.length = board.length)
    (hpos : ∀ row ∈ board, ∀ x ∈ row, 1 ≤ x) :
    solve_minimal board target_rows target_cols op
        (rowPossibilities board target_rows op) none =
      firstMin (validAssignments board target_rows target_cols op) := by
  have hcols : (board.headD []).length = board.length := by
    cases board with
    | nil => rfl
    | cons a rest =>
      simpa using hsq a (by simp)
  have hrplen : (rowPossibilities board target_rows op).length = board.length := by
    rw [rowPossibilities, List.length_map, List.length_zip, hrt]
    omega
  rw [solve_minimal, solveRows_eq_foldl, foldl_updateBest_eq, mergeBest_none]
  congr 1
  rw [pathSols_eq_filter board target_cols op (board.headD []).length ?hb
    (rowPossibilities board target_rows op) [] (by simpa using hrplen) (by simp)]
  case hb =>
    intro r c hr hc
    rw [hcols] at hc
    have hrow : board.getD r [] ∈ board := by
      rw [List.getD_eq_getElem _ _ hr]
      exact List.getElem_mem _
    have hcw : c < (board.getD r []).length := by
      rw [hsq _ hrow]
      exact hc
    have hcell : (board.getD r []).getD c 0 ∈ board.getD r [] := by
      rw [List.getD_eq_getElem _ _ hcw]
      exact List.getElem_mem _
    exact hpos _ hrow _ hcell
  rw [validAssignments, hcols]
  congr 1
  have : ((fun t => ([] : Mask) ++ t)) = id := by
    funext t
    simp
  rw [this, List.map_id]

/-- C1: for a square board of positive integers with per-row candidate sets
from `find_matching_subsets`, `solve_minimal` leaves the accumulator
unchanged *exactly* when no valid complete assignment exists (in particular
it always ends holding some mask when one exists), and any held mask is a
complete mask that passes the full column check, whose marked-cell count is
the global minimum over all valid complete assignments, the first such mask
in search order winning ties. -/
theorem solve_minimal_correct (board : List (List ℤ)) (target_rows target_cols : List ℤ)
    (op : Op)
    (hsq : ∀ row ∈ board, row.length = board.length)
    (hrt : target_rows.length = board.length)
    (hpos : ∀ row ∈ board, ∀ x ∈ row, 1 ≤ x) :
    (solve_minimal board target_rows target_cols op
        (rowPossibilities board target_rows op) none = none ↔
      validAssignments board target_rows target_cols op = []) ∧
    ∀ m g, solve_minimal board target_rows target_cols op
        (rowPossibilities board target_rows op) none = some (m, g) →
      g ∈ validAssignments board target_rows target_cols op ∧
      is_valid_columns g board target_cols op = true ∧
      m = count_marked g ∧
      (∀ g' ∈ validAssignments board target_rows target_cols op,
        m ≤ count_marked g') ∧
      (validAssignments board target_rows target_cols op).find?
        (fun g' => count_marked g' ≤ m) = some g := by
  rw [solve_minimal_run board target_rows target_cols op hsq hrt hpos]
  constructor
  · exact firstMin_eq_none_iff _
  · intro m g h
    obtain ⟨hmem, hcnt, hmin, hfind⟩ := firstMin_spec _ m g h
    refine ⟨hmem, ?_, hcnt, hmin, hfind⟩
    have := List.of_mem_filter hmem
    simpa using this

/-- Witness for C1 at a concrete instance, exercising both the completeness
direction (a valid assignment exists, so the solver does not return `none`)
and the minimality data of the returned mask. -/
theorem solve_minimal_correct_witness :
    solve_minimal [[2, 2], [2, 2]] [4, 4] [4, 4] .add
      (rowPossibilities [[2, 2], [2, 2]] [4, 4] .add) none ≠ none ∧
    [[1, 1], [1, 1]] ∈ validAssignments [[2, 2], [2, 2]] [4, 4] [4, 4] .add ∧
    4 = count_marked [[1, 1], [1, 1]] := by
  have h := solve_minimal_correct [[2, 2], [2, 2]] [4, 4] [4, 4] .add
    (by decide) (by decide) (by decide)
  have h2 := h.2 4 [[1, 1], [1, 1]] (by decide)
  refine ⟨?_, h2.1, h2.2.2.1⟩
  intro h0
  exact absurd (h.1.mp h0) (by decide)

/-- `op = operator.mul if operation == "*" else operator.add`. -/
def opOf (operation : String) : Op :=
  if operation = "*" then Op.mul else Op.add

/-- The `/solve` endpoint core (main.py lines 64-97): `solve_and_collect`
run from the empty grid with accumulator `[inf, None]` and an empty
solution list. -/
def solve_puzzle (board : List (List ℤ)) (target_rows target_cols : List ℤ)
    (operation : String) : Option (ℕ × Mask) × List Mask :=
  collectRows board target_cols (opOf operation) (board.headD []).length
    (rowPossibilities board target_rows (opOf operation)) [] (none, [])

/-- C6: whenever `solve_minimal` finds a solution, the mask it retains is an
element of the list produced by the solve-all traversal on the same inputs,
and every mask in that list passes the full column-validity check. -/
theorem solve_minimal_in_solve_all (board : List (List ℤ))
    (target_rows target_cols : List ℤ) (operation : String) :
    (∀ m g, solve_minimal board target_rows target_cols (opOf operation)
        (rowPossibilities board target_rows (opOf operation)) none = some (m, g) →
      g ∈ (solve_puzzle board target_rows target_cols operation).2) ∧
    ∀ g ∈ (solve_puzzle board target_rows target_cols operation).2,
      is_valid_columns g board target_cols (opOf operation) = true := by
  have hsp : (solve_puzzle board target_rows target_cols operation).2 =
      pathSols board target_cols (opOf operation) (board.headD []).length
        (rowPossibilities board target_rows (opOf operation)) [] := by
    rw [solve_puzzle, collectRows_eq]
    simp
  constructor
  · intro m g h
    rw [solve_minimal, solveRows_eq_foldl, foldl_updateBest_eq, mergeBest_none] at h
    obtain ⟨hmem, _, _, _⟩ := firstMin_spec _ m g h
    rw [hsp]
    exact hmem
  · intro g hg
    rw [hsp] at hg
    obtain ⟨_, _, _, hvalid⟩ := pathSols_shape _ _ _ _ _ _ _ hg
    exact hvalid

/-- Witness for C6 at a concrete instance. -/
theorem solve_minimal_in_solve_all_witness :
    [[1, 1], [1, 1]] ∈ (solve_puzzle [[2, 2], [2, 2]] [4, 4] [4, 4] "+").2 :=
  (solve_minimal_in_solve_all [[2, 2], [2, 2]] [4, 4] [4, 4] "+").1
    4 [[1, 1], [1, 1]] (by decide)

/-! ## solveAll over validated manual input (manual_input.py) -/

theorem maskRow_getD {s : Finset ℕ} {cols i : ℕ} (hi : i < cols) :
    (maskRow s cols).getD i 0 = if i ∈ s then 1 else 0 := by
  have hlen : i < (maskRow s cols).length := by
    simp only [maskRow, List.length_map, List.length_range]
    exact hi
  rw [List.getD_eq_getElem _ _ hlen]
  simp [maskRow]

theorem maskRow_getElem {s : Finset ℕ} {cols i : ℕ}
    (hi : i < (maskRow s cols).length) :
    (maskRow s cols)[i] = if i ∈ s then 1 else 0 := by
  simp [maskRow]

/-- The support of a 0/1 mask row. -/
def maskSupp (mrow : List ℕ) (cols : ℕ) : Finset ℕ :=
  (Finset.range cols).filter (fun i => mrow.getD i 0 = 1)

theorem eq_maskRow_of_01 {mrow : List ℕ} {cols : ℕ}
    (hlen : mrow.length = cols) (h01 : ∀ x ∈ mrow, x = 0 ∨ x = 1) :
    mrow = maskRow (maskSupp mrow cols) cols := by
  apply List.ext_getElem
  · simp [maskRow, hlen]
  · intro i hi hil
    have hic : i < cols := by omega
    rw [maskRow_getElem (by
      simp only [maskRow, List.length_map, List.length_range]
      exact hic)]
    have hmem : i ∈ maskSupp mrow cols ↔ mrow.getD i 0 = 1 := by
      rw [maskSupp, Finset.mem_filter, Finset.mem_range]
      constructor
      · exact fun h => h.2
      · exact fun h => ⟨hic, h⟩
    have hgd : mrow.getD i 0 = mrow[i] := List.getD_eq_getElem _ _ hi
    rcases h01 mrow[i] (List.getElem_mem _) with h0 | h1
    · rw [if_neg]
      · exact h0
      · rw [hmem, hgd, h0]
        omega
    · rw [if_pos]
      · exact h1
      · rw [hmem, hgd, h1]

theorem filterMap_ite {l : List ℕ} {p : ℕ → Prop} [DecidablePred p] {f : ℕ → ℤ} :
    l.filterMap (fun i => if p i then some (f i) else none) =
      (l.filter (fun i => decide (p i))).map f := by
  induction l with
  | nil => simp
  | cons x xs ih =>
    by_cases h : p x
    · simp [h, ih]
    · simp [h, ih]

theorem list_range_toFinset (n : ℕ) : (List.range n).toFinset = Finset.range n := by
  ext x
  simp

/-- The marked values of a board row under a 0/1 mask row, in index order. -/
def rowValues (mrow : List ℕ) (vals : List ℤ) : List ℤ :=
  (List.range vals.length).filterMap fun i =>
    if mrow.getD i 0 = 1 then some (vals.getD i 0) else none

theorem rowValues_maskRow {vals : List ℤ} {s : Finset ℕ} :
    rowValues (maskRow s vals.length) vals =
      ((List.range vals.length).filter (fun i => decide (i ∈ s))).map (vals.getD · 0) := by
  rw [rowValues]
  rw [List.filterMap_congr (g := fun i => if i ∈ s then some (vals.getD i 0) else none) ?_]
  · exact filterMap_ite
  · intro i hi
    rw [maskRow_getD (List.mem_range.mp hi)]
    by_cases h : i ∈ s
    · simp [h]
    · simp [h]

theorem reduceOp_rowValues (op : Op) {vals : List ℤ} {s : Finset ℕ}
    (hne : s.Nonempty) (hbnd : ∀ i ∈ s, i < vals.length) :
    rowValues (maskRow s vals.length) vals ≠ [] ∧
    reduceOp op (rowValues (maskRow s vals.length) vals) = subsetValue op vals s := by
  set idxs := (List.range vals.length).filter (fun i => decide (i ∈ s)) with hidxs
  have hrv : rowValues (maskRow s vals.length) vals = idxs.map (vals.getD · 0) :=
    rowValues_maskRow
  have hnd : idxs.Nodup := (List.nodup_range _).filter _
  have htf : idxs.toFinset = s := by
    rw [hidxs, List.toFinset_filter, list_range_toFinset]
    ext i
    rw [Finset.mem_filter, Finset.mem_range]
    constructor
    · intro h
      simpa using h.2
    · intro h
      exact ⟨hbnd i h, by simpa using h⟩
  have hine : idxs ≠ [] := by
    obtain ⟨i, hi⟩ := hne
    have : i ∈ idxs := by
      rw [hidxs, List.mem_filter, List.mem_range]
      exact ⟨hbnd i hi, by simpa using hi⟩
    exact List.ne_nil_of_mem this
  constructor
  · rw [hrv]
    simpa using hine
  · rw [hrv, reduceOp_map_getD op vals hine hnd, htf]

theorem forall₂_of_getD {α β : Type} (R : α → β → Prop) (d₁ : α) (d₂ : β) :
    ∀ (l₁ : List α) (l₂ : List β), l₁.length = l₂.length →
      (∀ k < l₁.length, R (l₁.getD k d₁) (l₂.getD k d₂)) →
      List.Forall₂ R l₁ l₂ := by
  intro l₁
  induction l₁ with
  | nil =>
    intro l₂ hlen _
    rw [List.length_nil] at hlen
    rw [(List.length_eq_zero.mp hlen.symm)]
    exact List.Forall₂.nil
  | cons a l₁ ih =>
    intro l₂ hlen hR
    cases l₂ with
    | nil => simp at hlen
    | cons b l₂ =>
      refine List.Forall₂.cons ?_ ?_
      · exact hR 0 (by simp)
      · refine ih l₂ (by simpa using hlen) ?_
        intro k hk
        have := hR (k + 1) (by simp; omega)
        simpa using this

theorem forall₂_getD {α β : Type} {R : α → β → Prop} (d₁ : α) (d₂ : β) :
    ∀ {l₁ : List α} {l₂ : List β}, List.Forall₂ R l₁ l₂ →
      ∀ k < l₁.length, R (l₁.getD k d₁) (l₂.getD k d₂) := by
  intro l₁ l₂ h
  induction h with
  | nil =>
    intro k hk
    simp at hk
  | cons hr htail ih =>
    intro k hk
    cases k with
    | zero => simpa using hr
    | succ k =>
      have := ih k (by simpa using hk)
      simpa using this

theorem is_valid_columns_iff {g : Mask} {board : List (List ℤ)} {tc : List ℤ}
    {op : Op} :
    is_valid_columns g board tc op = true ↔
      ∀ j < (g.headD []).length, colValues g board board.length j ≠ [] ∧
        reduceOp op (colValues g board board.length j) = tc.getD j 0 := by
  rw [is_valid_columns, List.all_eq_true]
  constructor
  · intro h j hj
    have hcol := h j (List.mem_range.mpr hj)
    simp only at hcol
    by_cases he : colValues g board board.length j = []
    · rw [if_pos he] at hcol
      exact absurd hcol (by simp)
    · rw [if_neg he] at hcol
      refine ⟨he, ?_⟩
      by_contra hne
      rw [if_pos hne] at hcol
      exact absurd hcol (by simp)
  · intro h j hj
    obtain ⟨hne, heq⟩ := h j (List.mem_range.mp hj)
    simp only
    rw [if_neg hne, if_neg (by simp [heq])]

theorem rowPossibilities_getD {board : List (List ℤ)} {tr : List ℤ} {op : Op}
    {i : ℕ} (hi : i < board.length) (hi2 : i < tr.length) :
    (rowPossibilities board tr op).getD i [] =
      find_matching_subsets (board.getD i []) (tr.getD i 0) op := by
  rw [rowPossibilities]
  have hlen : i < (board.zip tr).length := by
    rw [List.length_zip]
    omega
  rw [List.getD_eq_getElem _ _ (by simpa using hlen), List.getElem_map,
    List.getElem_zip, List.getD_eq_getElem _ _ hi, List.getD_eq_getElem _ _ hi2]

theorem mem_maskRow_01 {x cols : ℕ} {s : Finset ℕ} (h : x ∈ maskRow s cols) :
    x = 0 ∨ x = 1 := by
  rw [maskRow] at h
  obtain ⟨i, _, hi⟩ := List.mem_map.mp h
  split at hi
  · right
    exact hi.symm
  · left
    exact hi.symm

/-- `validate_manual_input(board, target_rows, target_cols, operation)`
(manual_input.py lines 20-114) as its acceptance predicate
(`len(errors) == 0`): each `errors.append` guard becomes a conjunct, the
Hebrew message strings are dropped, and `isinstance(v, int)` is vacuous in
the integer model.  `reduce(mul, [9]*5) = 59049` and `9 * 5 = 45` are the
feasibility bounds computed by the source. -/
def validate_manual_input_ok (board : List (List ℤ)) (target_rows target_cols : List ℤ)
    (operation : String) : Bool :=
  decide (board.length = 5 ∧
    (∀ row ∈ board, row.length = 5) ∧
    target_rows.length = 5 ∧
    target_cols.length = 5 ∧
    (operation = "*" ∨ operation = "+") ∧
    (if operation = "+" then ∀ row ∈ board, ∀ v ∈ row, 1 ≤ v ∧ v ≤ 9
     else ∀ row ∈ board, ∀ v ∈ row, 2 ≤ v ∧ v ≤ 9) ∧
    (∀ t ∈ target_rows, 0 < t) ∧
    (∀ t ∈ target_cols, 0 < t) ∧
    (if operation = "*" then
      (∀ t ∈ target_rows, 2 ≤ t ∧ t ≤ 59049) ∧ (∀ t ∈ target_cols, 2 ≤ t ∧ t ≤ 59049)
     else
      (∀ t ∈ target_rows, 1 ≤ t ∧ t ≤ 45) ∧ (∀ t ∈ target_cols, 1 ≤ t ∧ t ≤ 45)))

/-- `find_all_solutions(board, target_rows, target_cols, operation)`
(manual_input.py lines 116-168): the debug printing is dropped; the
recursion over `row_idx = 0..5` collecting every valid complete mask is the
depth-first traversal `pathSols` over the committed prefix. -/
def find_all_solutions (board : List (List ℤ)) (target_rows target_cols : List ℤ)
    (operation : String) : List Mask :=
  if (rowPossibilities board target_rows (opOf operation)).any List.isEmpty then []
  else pathSols board target_cols (opOf operation) 5
    (rowPossibilities board target_rows (opOf operation)) []

/-- A SelectionMask for a 5×5 board: a 5×5 matrix over {0,1} (spec §3). -/
def IsMask (g : Mask) : Prop :=
  g.length = 5 ∧ ∀ row ∈ g, row.length = 5 ∧ ∀ x ∈ row, x = 0 ∨ x = 1

/-- Specification-side validity of a SelectionMask (spec §3 data model): for
every row and every column, combining the marked cells' values under the
operator equals that row's/column's target, and no row or column with a
nonzero target is fully unmarked. -/
def MaskValid (board : List (List ℤ)) (target_rows target_cols : List ℤ)
    (op : Op) (g : Mask) : Prop :=
  (∀ i < board.length,
    reduceOp op (rowValues (g.getD i []) (board.getD i [])) = target_rows.getD i 0 ∧
    (target_rows.getD i 0 ≠ 0 → rowValues (g.getD i []) (board.getD i []) ≠ [])) ∧
  (∀ j < (board.headD []).length,
    reduceOp op (colValues g board board.length j) = target_cols.getD j 0 ∧
    (target_cols.getD j 0 ≠ 0 → colValues g board board.length j ≠ []))

theorem row_candidate_of_maskValid {board : List (List ℤ)} {tr tc : List ℤ}
    {op : Op} {g : Mask}
    (hb5 : board.length = 5) (hrows5 : ∀ row ∈ board, row.length = 5)
    (hrt5 : tr.length = 5) (htr : ∀ t ∈ tr, 0 < t)
    (hg : IsMask g) (hmv : MaskValid board tr tc op g) :
    ∀ i < 5, g.getD i [] = maskRow (maskSupp (g.getD i []) 5) 5 ∧
      maskSupp (g.getD i []) 5 ∈
        find_matching_subsets (board.getD i []) (tr.getD i 0) op := by
  intro i hi
  obtain ⟨hglen, hgrows⟩ := hg
  have hrowmem : g.getD i [] ∈ g := by
    rw [List.getD_eq_getElem _ _ (by omega)]
    exact List.getElem_mem _
  obtain ⟨hrl5, h01⟩ := hgrows _ hrowmem
  have heq : g.getD i [] = maskRow (maskSupp (g.getD i []) 5) 5 :=
    eq_maskRow_of_01 hrl5 h01
  have hbmem : board.getD i [] ∈ board := by
    rw [List.getD_eq_getElem _ _ (by omega)]
    exact List.getElem_mem _
  have hbl5 : (board.getD i []).length = 5 := hrows5 _ hbmem
  obtain ⟨hred, hne⟩ := hmv.1 i (by omega)
  have htri : tr.getD i 0 ≠ 0 := by
    have hmem : tr.getD i 0 ∈ tr := by
      rw [List.getD_eq_getElem _ _ (by omega)]
      exact List.getElem_mem _
    have := htr _ hmem
    omega
  have hnev : rowValues (g.getD i []) (board.getD i []) ≠ [] := hne htri
  have hbnd : ∀ k ∈ maskSupp (g.getD i []) 5, k < (board.getD i []).length := by
    intro k hk
    rw [maskSupp, Finset.mem_filter, Finset.mem_range] at hk
    omega
  have hsne : (maskSupp (g.getD i []) 5).Nonempty := by
    rw [Finset.nonempty_iff_ne_empty]
    intro hemp
    apply hnev
    rw [heq, hemp, ← hbl5, rowValues_maskRow]
    simp
  have hbridge := @reduceOp_rowValues op (board.getD i []) _ hsne hbnd
  rw [hbl5] at hbridge
  refine ⟨heq, mem_find_matching_subsets.mpr ⟨hsne, hbnd, ?_⟩⟩
  rw [← hbridge.2, ← heq]
  exact hred

theorem headD_mem_of_ne_nil {g : Mask} (h : g ≠ []) : g.headD [] ∈ g := by
  cases g with
  | nil => exact absurd rfl h
  | cons a rest => simp

theorem find_all_aux (board : List (List ℤ)) (tr tc : List ℤ) (operation : String)
    (hb5 : board.length = 5) (hrows5 : ∀ row ∈ board, row.length = 5)
    (hrt5 : tr.length = 5) (hct5 : tc.length = 5)
    (hpos : ∀ row ∈ board, ∀ v ∈ row, 1 ≤ v)
    (htr : ∀ t ∈ tr, 0 < t) (htc : ∀ t ∈ tc, 0 < t) :
    ∀ g : Mask, g ∈ find_all_solutions board tr tc operation ↔
      IsMask g ∧ MaskValid board tr tc (opOf operation) g := by
  intro g
  have hrp5 : (rowPossibilities board tr (opOf operation)).length = 5 := by
    rw [rowPossibilities, List.length_map, List.length_zip, hb5, hrt5]
    simp
  have hhb : (board.headD []).length = 5 := by
    cases board with
    | nil => simp at hb5
    | cons a rest => simpa using hrows5 a (by simp)
  have hrhs_row : (IsMask g ∧ MaskValid board tr tc (opOf operation) g) →
      ∀ i < 5, g.getD i [] = maskRow (maskSupp (g.getD i []) 5) 5 ∧
        maskSupp (g.getD i []) 5 ∈
          (rowPossibilities board tr (opOf operation)).getD i [] := by
    rintro ⟨hg, hmv⟩ i hi
    obtain ⟨h1, h2⟩ := row_candidate_of_maskValid hb5 hrows5 hrt5 htr hg hmv i hi
    refine ⟨h1, ?_⟩
    rw [rowPossibilities_getD (by omega) (by omega)]
    exact h2
  rw [find_all_solutions]
  split
  case isTrue hany =>
    constructor
    · intro h
      exact absurd h (List.not_mem_nil _)
    · intro hrhs
      obtain ⟨ps, hpsmem, hpse⟩ := List.any_eq_true.mp hany
      obtain ⟨i, hilen, hieq⟩ := List.mem_iff_getElem.mp hpsmem
      have hie : (rowPossibilities board tr (opOf operation)).getD i [] = [] := by
        rw [List.getD_eq_getElem _ _ hilen, hieq]
        exact List.isEmpty_iff.mp hpse
      have hcand := (hrhs_row hrhs i (by omega)).2
      rw [hie] at hcand
      exact absurd hcand (List.not_mem_nil _)
  case isFalse hany =>
    have hbfilter : ∀ r c, r < board.length → c < 5 →
        1 ≤ (board.getD r []).getD c 0 := by
      intro r c hr hc
      have hrow : board.getD r [] ∈ board := by
        rw [List.getD_eq_getElem _ _ hr]
        exact List.getElem_mem _
      have hcw : c < (board.getD r []).length := by
        rw [hrows5 _ hrow]
        exact hc
      have hcell : (board.getD r []).getD c 0 ∈ board.getD r [] := by
        rw [List.getD_eq_getElem _ _ hcw]
        exact List.getElem_mem _
      exact hpos _ hrow _ hcell
    rw [pathSols_eq_filter board tc (opOf operation) 5 hbfilter
      (rowPossibilities board tr (opOf operation)) [] (by simp [hrp5, hb5]) (by simp)]
    rw [show ((fun t : Mask => ([] : Mask) ++ t)) = id from rfl, List.map_id]
    rw [List.mem_filter]
    constructor
    · rintro ⟨hmem1, hvalid⟩
      have hglen : g.length = 5 := by
        rw [assignments_length hmem1, hrp5]
      have hfa := mem_assignments.mp hmem1
      have hIsMask : IsMask g := by
        refine ⟨hglen, ?_⟩
        intro row hrow
        obtain ⟨k, hk, hkeq⟩ := List.mem_iff_getElem.mp hrow
        have hk5 : k < 5 := by omega
        have hR := forall₂_getD ([] : List (Finset ℕ)) ([] : List ℕ) hfa k (by omega)
        obtain ⟨o, _, hrq⟩ := hR
        have hrowD : g.getD k [] = row := by
          rw [List.getD_eq_getElem _ _ hk, hkeq]
        rw [hrowD] at hrq
        rw [hrq]
        exact ⟨by simp [maskRow], fun x hx => mem_maskRow_01 hx⟩
      refine ⟨hIsMask, ?_, ?_⟩
      · -- row clauses
        intro i hib
        have hi5 : i < 5 := by omega
        have hR := forall₂_getD ([] : List (Finset ℕ)) ([] : List ℕ) hfa i (by omega)
        obtain ⟨o, ho, hrq⟩ := hR
        rw [rowPossibilities_getD (by omega) (by omega)] at ho
        obtain ⟨hone, hbnd, hval⟩ := mem_find_matching_subsets.mp ho
        have hbmem : board.getD i [] ∈ board := by
          rw [List.getD_eq_getElem _ _ hib]
          exact List.getElem_mem _
        have hbl5 : (board.getD i []).length = 5 := hrows5 _ hbmem
        have hbridge := @reduceOp_rowValues (opOf operation) (board.getD i []) _ hone hbnd
        rw [hbl5] at hbridge
        rw [hrq]
        exact ⟨by rw [hbridge.2, hval], fun _ => hbridge.1⟩
      · -- column clauses
        intro j hjb
        have hgne : g ≠ [] := by
          intro h0
          rw [h0] at hglen
          simp at hglen
        have hghead : (g.headD []).length = 5 :=
          (hIsMask.2 _ (headD_mem_of_ne_nil hgne)).1
        have hcols := is_valid_columns_iff.mp hvalid j (by omega)
        exact ⟨hcols.2, fun _ => hcols.1⟩
    · rintro ⟨hg, hmv⟩
      have hrowdata := hrhs_row ⟨hg, hmv⟩
      refine ⟨?_, ?_⟩
      · apply mem_assignments.mpr
        apply forall₂_of_getD _ ([] : List (Finset ℕ)) ([] : List ℕ)
        · rw [hrp5, hg.1]
        · intro k hk
          have hk5 : k < 5 := by omega
          exact ⟨maskSupp (g.getD k []) 5, (hrowdata k hk5).2, (hrowdata k hk5).1⟩
      · have hgne : g ≠ [] := by
          intro h0
          rw [h0] at hg
          simp [IsMask] at hg
        have hghead : (g.headD []).length = 5 :=
          (hg.2 _ (headD_mem_of_ne_nil hgne)).1
        apply is_valid_columns_iff.mpr
        intro j hj
        rw [hghead] at hj
        have hcol := hmv.2 j (by omega)
        have htcj : tc.getD j 0 ≠ 0 := by
          have hmem : tc.getD j 0 ∈ tc := by
            rw [List.getD_eq_getElem _ _ (by omega)]
            exact List.getElem_mem _
          have := htc _ hmem
          omega
        exact ⟨hcol.2 htcj, hcol.1⟩

/-- C5: for every 5×5 board and targets accepted by validation,
`find_all_solutions` returns exactly the valid SelectionMasks as the data
model defines validity: a mask is in the result iff every row and column
combines its marked values to the target and no row or column with a
nonzero target is fully unmarked. -/
theorem find_all_solutions_exact (board : List (List ℤ))
    (target_rows target_cols : List ℤ) (operation : String)
    (hval : validate_manual_input_ok board target_rows target_cols operation = true) :
    ∀ g : Mask, g ∈ find_all_solutions board target_rows target_cols operation ↔
      IsMask g ∧ MaskValid board target_rows target_cols (opOf operation) g := by
  have h := of_decide_eq_true hval
  obtain ⟨hb5, hrows5, hrt5, hct5, hop, hvals, htr0, htc0, hfeas⟩ := h
  apply find_all_aux board target_rows target_cols operation hb5 hrows5 hrt5 hct5
    ?_ htr0 htc0
  rcases hop with hstar | hplus
  · rw [if_neg (by rw [hstar]; decide)] at hvals
    intro row hrow v hv
    have := hvals row hrow v hv
    omega
  · rw [if_pos hplus] at hvals
    intro row hrow v hv
    have := hvals row hrow v hv
    omega

/-- Witness for C5 at a concrete validated instance. -/
theorem find_all_solutions_exact_witness :
    [[1, 1, 1, 1, 1], [1, 1, 1, 1, 1], [1, 1, 1, 1, 1], [1, 1, 1, 1, 1],
      [1, 1, 1, 1, 1]] ∈
      find_all_solutions
        [[2, 2, 2, 2, 2], [2, 2, 2, 2, 2], [2, 2, 2, 2, 2], [2, 2, 2, 2, 2],
          [2, 2, 2, 2, 2]]
        [10, 10, 10, 10, 10] [10, 10, 10, 10, 10] "+" :=
  (find_all_solutions_exact _ _ _ "+" (by decide) _).mpr
    (by
      constructor
      · unfold IsMask
        decide
      · unfold MaskValid
        decide)

/-! ## DifficultyHeuristics: confusion scoring (core_logic.py lines 505-610) -/

/-- Stable insertion into a sorted list: `cmp x y = true` means `x` may sit
before `y`.  Models the stability contract of CPython's `list.sort`. -/
def insertSorted {α : Type} (cmp : α → α → Bool) (x : α) : List α → List α
  | [] => [x]
  | y :: ys => if cmp x y then x :: y :: ys else y :: insertSorted cmp x ys

/-- Stable sort (insertion sort).  A stable sort by a total preorder is
unique, so this models Python's `list.sort` / `sorted` exactly. -/
def stableSort {α : Type} (cmp : α → α → Bool) : List α → List α
  | [] => []
  | x :: xs => insertSorted cmp x (stableSort cmp xs)

theorem mem_insertSorted {α : Type} {cmp : α → α → Bool} {x y : α} {l : List α} :
    y ∈ insertSorted cmp x l ↔ y = x ∨ y ∈ l := by
  induction l with
  | nil => simp [insertSorted]
  | cons z zs ih =>
    rw [insertSorted]
    split
    · simp
    · rw [List.mem_cons, ih]
      constructor
      · rintro (rfl | h | h)
        · right
          simp
        · left
          exact h
        · right
          simp [h]
      · rintro (rfl | h)
        · right
          left
          rfl
        · rcases List.mem_cons.mp h with rfl | h'
          · left
            rfl
          · right
            right
            exact h'

theorem mem_stableSort {α : Type} {cmp : α → α → Bool} {x : α} {l : List α} :
    x ∈ stableSort cmp l ↔ x ∈ l := by
  induction l with
  | nil => simp [stableSort]
  | cons z zs ih =>
    rw [stableSort, mem_insertSorted, ih]
    simp

/-- `find_common_factors(row_target, col_target, valid_digits)`
(core_logic.py lines 505-520): the valid digits dividing both targets,
sorted ascending; empty when either target is non-positive. -/
def find_common_factors (row_target col_target : ℤ) (valid_digits : List ℤ) :
    List ℤ :=
  if row_target ≤ 0 ∨ col_target ≤ 0 then []
  else stableSort (fun a b => a ≤ b)
    (valid_digits.filter fun n => row_target % n = 0 ∧ col_target % n = 0)

theorem mem_find_common_factors {rt ct : ℤ} {digits : List ℤ} {v : ℤ} :
    v ∈ find_common_factors rt ct digits ↔
      0 < rt ∧ 0 < ct ∧ v ∈ digits ∧ v ∣ rt ∧ v ∣ ct := by
  rw [find_common_factors]
  split
  case isTrue h =>
    simp only [List.not_mem_nil, false_iff]
    rintro ⟨h1, h2, _, _, _⟩
    rcases h with h | h <;> omega
  case isFalse h =>
    push_neg at h
    rw [mem_stableSort, List.mem_filter]
    simp only [decide_eq_true_eq]
    constructor
    · rintro ⟨hmem, hdvd1, hdvd2⟩
      exact ⟨h.1, h.2, hmem, Int.dvd_of_emod_eq_zero hdvd1,
        Int.dvd_of_emod_eq_zero hdvd2⟩
    · rintro ⟨_, _, hmem, hdvd1, hdvd2⟩
      exact ⟨hmem, Int.emod_eq_zero_of_dvd hdvd1, Int.emod_eq_zero_of_dvd hdvd2⟩

/-- `evaluate_board_confusion(board, row_targets, col_targets, solution_grid,
valid_digits)` (core_logic.py lines 576-610): the nested accumulation loops
become sums over cell and target indices. -/
def evaluate_board_confusion (board : List (List ℤ)) (row_targets col_targets : List ℤ)
    (solution_grid : Mask) (valid_digits : List ℤ) : ℤ :=
  ((List.range board.length).map fun row_idx =>
    ((List.range board.length).map fun col_idx =>
      if (solution_grid.getD row_idx []).getD col_idx 0 = 0 then
        (if (board.getD row_idx []).getD col_idx 0 ∈
            find_common_factors (row_targets.getD row_idx 0)
              (col_targets.getD col_idx 0) valid_digits
          then 50 else 0) +
        (if (row_targets.getD row_idx 0) % ((board.getD row_idx []).getD col_idx 0) = 0 ∨
            (col_targets.getD col_idx 0) % ((board.getD row_idx []).getD col_idx 0) = 0
          then 25 else 0)
      else 0).sum).sum +
  ((row_targets ++ col_targets).map fun target =>
    if 0 < target then
      if 4 ≤ (valid_digits.filter fun n => target % n = 0).length then 30
      else if 3 ≤ (valid_digits.filter fun n => target % n = 0).length then 15
      else 0
    else 0).sum

/-- The confusion formula exactly as the claim words it: +50 for a common
divisor of both targets, +25 for dividing exactly one of them, and the
divisor-count bonuses for every target with no positivity guard. -/
def claimedConfusionScore (board : List (List ℤ)) (row_targets col_targets : List ℤ)
    (solution_grid : Mask) (valid_digits : List ℤ) : ℤ :=
  ((List.range board.length).map fun row_idx =>
    ((List.range board.length).map fun col_idx =>
      if (solution_grid.getD row_idx []).getD col_idx 0 = 0 then
        (let v := (board.getD row_idx []).getD col_idx 0
         let rt := row_targets.getD row_idx 0
         let ct := col_targets.getD col_idx 0
         if v ∣ rt ∧ v ∣ ct then 50
         else if v ∣ rt ∨ v ∣ ct then 25
         else 0)
      else 0).sum).sum +
  ((row_targets ++ col_targets).map fun target =>
    if 4 ≤ (valid_digits.filter fun n => n ∣ target).length then 30
    else if 3 ≤ (valid_digits.filter fun n => n ∣ target).length then 15
    else 0).sum

/-- The claimed formula disagrees with the code at concrete inputs: a
common-divisor cell scores 50 + 25 = 75 and not 50; common-divisor status
requires the cell value to belong to the valid digit domain; and the divisor
bonuses are skipped for non-positive targets. -/
theorem evaluate_board_confusion_counterexample :
    (evaluate_board_confusion [[2]] [4] [2] [[0]] [2] = 75 ∧
      claimedConfusionScore [[2]] [4] [2] [[0]] [2] = 50) ∧
    (evaluate_board_confusion [[5]] [10] [10] [[0]] [2] = 25 ∧
      claimedConfusionScore [[5]] [10] [10] [[0]] [2] = 50) ∧
    (evaluate_board_confusion [[2]] [0] [0] [[1]] [2, 3, 4, 6] = 0 ∧
      claimedConfusionScore [[2]] [0] [0] [[1]] [2, 3, 4, 6] = 60) := by
  decide

/-- C8 amended: the confusion score, with the scoring as the code applies
it — +50 only when the cell value lies in the valid digit domain and divides
both (positive) targets, an *additional* +25 when it divides the row or the
column target, and divisor bonuses only for positive targets. -/
def amendedConfusionScore (board : List (List ℤ)) (row_targets col_targets : List ℤ)
    (solution_grid : Mask) (valid_digits : List ℤ) : ℤ :=
  ((List.range board.length).map fun row_idx =>
    ((List.range board.length).map fun col_idx =>
      if (solution_grid.getD row_idx []).getD col_idx 0 = 0 then
        (let v := (board.getD row_idx []).getD col_idx 0
         let rt := row_targets.getD row_idx 0
         let ct := col_targets.getD col_idx 0
         (if 0 < rt ∧ 0 < ct ∧ v ∈ valid_digits ∧ v ∣ rt ∧ v ∣ ct then 50 else 0) +
         (if v ∣ rt ∨ v ∣ ct then 25 else 0))
      else 0).sum).sum +
  ((row_targets ++ col_targets).map fun target =>
    if 0 < target then
      if 4 ≤ (valid_digits.filter fun n => n ∣ target).length then 30
      else if 3 ≤ (valid_digits.filter fun n => n ∣ target).length then 15
      else 0
    else 0).sum

theorem emod_zero_iff_dvd (a b : ℤ) : a % b = 0 ↔ b ∣ a :=
  ⟨Int.dvd_of_emod_eq_zero, Int.emod_eq_zero_of_dvd⟩

/-- C8 (amended): `evaluate_board_confusion` equals, for every board,
targets, solution grid and valid-digit domain, the sum over all non-marked
cells of +50 when the cell value is a valid digit dividing both its (positive)
row and column targets plus +25 when it divides at least one of the two
targets, plus +30/+15 divisor-count bonuses for each positive target. -/
theorem evaluate_board_confusion_formula (board : List (List ℤ))
    (row_targets col_targets : List ℤ) (solution_grid : Mask)
    (valid_digits : List ℤ) :
    evaluate_board_confusion board row_targets col_targets solution_grid valid_digits =
      amendedConfusionScore board row_targets col_targets solution_grid valid_digits := by
  rw [evaluate_board_confusion, amendedConfusionScore]
  congr 1
  · apply congrArg
    apply List.map_congr_left
    intro i _
    apply congrArg
    apply List.map_congr_left
    intro j _
    split
    · simp only
      congr 1
      · rw [if_congr mem_find_common_factors rfl rfl]
      · rw [if_congr (or_congr (emod_zero_iff_dvd _ _) (emod_zero_iff_dvd _ _)) rfl rfl]
    · rfl
  · apply congrArg
    apply List.map_congr_left
    intro t _
    have hfilter : (valid_digits.filter fun n => decide (t % n = 0)) =
        (valid_digits.filter fun n => decide (n ∣ t)) := by
      apply List.filter_congr
      intro n _
      exact decide_eq_decide.mpr (emod_zero_iff_dvd t n)
    split
    · rw [hfilter]
    · rfl

/-! ## BoardGenerator (core_logic.py lines 107-503, 612-696)

The generator is randomized; it is embedded relative to a deterministic
`Oracle` whose stream stands for Python's `random`.  Quantifying over all
oracles covers every possible run.  The source's restart-from-scratch
recursion (`return generate_board_from_solution(...)`) and its unbounded
`while target > max_target` resampling loop make the generator partial; one
*attempt* is modelled as an `Option`-valued function (with fuel for the
resampling loop), so that a tuple is returned by the Python function exactly
when some attempt returns `some`.

The probability weights `0.1, 0.4, 0.44, ...` are exact multiples of `1/100`;
inside the generator they are scaled to integer hundredths and the uniform
draw `random.uniform(0, total)` is modelled as an arbitrary integer in
`[0, 100*total)`.  Every branch of the `weighted_choice` scan reachable by a
real draw is reachable by a hundredth draw (each partial-sum threshold is a
hundredth, and `0.0` is attainable) and conversely, so the set of possible
outcomes is unchanged.  The float comparisons `0.7*target <= product <=
1.3*target` are likewise modelled exactly as `7*target <= 10*product` etc. -/

/-- A deterministic oracle standing for Python's `random`: the stream `idx`
feeds every draw (`choice`, `choices`, `uniform`, shuffling); each primitive
consumes one tick. -/
structure Oracle where
  idx : ℕ → ℕ

/-- `random.choice(l)`: an arbitrary element of `l` (junk `0` on `[]`,
which no call site reaches). -/
def randChoice (o : Oracle) (t : ℕ) (l : List ℤ) : ℤ × ℕ :=
  (l.getD (o.idx t % l.length) 0, t + 1)

/-- `random.choices(population, weights)[0]`: an arbitrary element whose
weight is positive (CPython's cumulative-weight bisection never returns a
zero-weight element). -/
def randChoices (o : Oracle) (t : ℕ) (l : List ℤ) (w : List ℕ) : ℤ × ℕ :=
  let idxs := (List.range l.length).filter fun i => 0 < w.getD i 0
  (l.getD (idxs.getD (o.idx t % idxs.length) 0) 0, t + 1)

/-- The scan loop of `weighted_choice(weights)` (core_logic.py lines
130-141) given the uniform draw `r`: return `i + 1` at the first index with
`upto + w >= r`, else `len(weights)`. -/
def weighted_choice_go {α : Type} [AddCommMonoid α] [LinearOrder α] (r : α) :
    List α → α → ℕ → ℕ
  | [], _, i => i
  | w :: ws, upto, i =>
      if r ≤ upto + w then i + 1 else weighted_choice_go r ws (upto + w) (i + 1)

/-- `weighted_choice(weights)` (core_logic.py lines 130-141) with the
uniform draw `r = random.uniform(0, sum(weights))` made explicit. -/
def weighted_choice {α : Type} [AddCommMonoid α] [LinearOrder α]
    (weights : List α) (r : α) : ℕ :=
  weighted_choice_go r weights 0 0

/-- `weighted_choice` as the generator calls it, with weights in integer
hundredths and the uniform draw supplied by the oracle, reduced into
`[0, sum)` (`sum` is `100` at both call sites). -/
def weighted_choiceO (o : Oracle) (t : ℕ) (weights100 : List ℤ) : ℕ × ℕ :=
  (weighted_choice weights100 ((o.idx t : ℤ) % weights100.sum), t + 1)

/-- C9 (code side): after one single-cell row the generator zeroes the
weight of the count-1 outcome (`weights = [0, 0.44, 0.44, 0.06, 0.06]`),
yet `weighted_choice` still returns 1 when `random.uniform(0, total)` draws
exactly `0.0` — the first loop test is `upto + w >= r` with
`upto = w = r = 0` — so a second single-cell row can still be drawn; the
draw `0` lies in the range `[0, total)` of `random.uniform(0, total)`. -/
theorem weighted_choice_zero_weight_draws_one :
    weighted_choice [(0 : ℚ), 44/100, 44/100, 6/100, 6/100] 0 = 1 ∧
    ((0 : ℚ) ≤ 0 ∧ (0 : ℚ) < ([0, 44/100, 44/100, 6/100, 6/100] : List ℚ).sum) := by
  refine ⟨?_, le_refl 0, by norm_num⟩
  rw [weighted_choice, weighted_choice_go]
  norm_num

/-- `random.shuffle` modelled as oracle-driven selection: repeatedly pick an
arbitrary element and continue with the rest.  Every output is a permutation
of the input and every permutation is reachable. -/
def shuffleGo (o : Oracle) : ℕ → List ℤ → ℕ → List ℤ × ℕ
  | 0, l, t => (l, t)
  | fuel + 1, l, t =>
      if l = [] then ([], t)
      else
        let v := l.getD (o.idx t % l.length) 0
        let p := shuffleGo o fuel (l.erase v) (t + 1)
        (v :: p.1, p.2)

def shuffle (o : Oracle) (t : ℕ) (l : List ℤ) : List ℤ × ℕ :=
  shuffleGo o l.length l t

theorem getD_mod_mem {l : List ℤ} (h : l ≠ []) (k : ℕ) :
    l.getD (k % l.length) 0 ∈ l := by
  have hlen : 0 < l.length := List.length_pos.mpr h
  have hm : k % l.length < l.length := Nat.mod_lt _ hlen
  rw [List.getD_eq_getElem _ _ hm]
  exact List.getElem_mem _

theorem shuffleGo_perm (o : Oracle) :
    ∀ (fuel : ℕ) (l : List ℤ) (t : ℕ), l.length ≤ fuel →
      ((shuffleGo o fuel l t).1).Perm l := by
  intro fuel
  induction fuel with
  | zero =>
    intro l t h
    exact List.Perm.refl _
  | succ n ih =>
    intro l t h
    rw [shuffleGo]
    split
    case isTrue h0 =>
      rw [h0]
    case isFalse h0 =>
      simp only
      have hv : l.getD (o.idx t % l.length) 0 ∈ l := getD_mod_mem h0 _
      have hlen : (l.erase (l.getD (o.idx t % l.length) 0)).length ≤ n := by
        rw [List.length_erase_of_mem hv]
        have : 0 < l.length := List.length_pos.mpr h0
        omega
      have hperm := ih (l.erase (l.getD (o.idx t % l.length) 0)) (t + 1) hlen
      exact (hperm.cons _).trans (List.perm_cons_erase hv).symm

theorem shuffle_perm (o : Oracle) (t : ℕ) (l : List ℤ) :
    ((shuffle o t l).1).Perm l :=
  shuffleGo_perm o l.length l t (le_refl _)

/-- The values of `vals` at the positions marked `1` in a 0/1 mask row, in
position order. -/
def maskedVals : List ℕ → List ℤ → List ℤ
  | [], _ => []
  | _ :: _, [] => []
  | m :: ms, v :: vs => if m = 1 then v :: maskedVals ms vs else maskedVals ms vs

theorem rowValues_eq_maskedVals :
    ∀ (ms : List ℕ) (vs : List ℤ), ms.length = vs.length →
      rowValues ms vs = maskedVals ms vs := by
  intro ms vs
  induction vs generalizing ms with
  | nil =>
    intro hlen
    rw [List.length_nil] at hlen
    rw [List.length_eq_zero.mp hlen]
    rfl
  | cons v vs ih =>
    intro hlen
    cases ms with
    | nil => simp at hlen
    | cons m ms =>
      rw [rowValues, maskedVals]
      rw [List.length_cons, List.range_succ_eq_map, List.filterMap_cons,
        List.filterMap_map]
      have htail : (List.range vs.length).filterMap
          ((fun i => if (m :: ms).getD i 0 = 1 then some ((v :: vs).getD i 0) else none)
            ∘ Nat.succ) = maskedVals ms vs := by
        rw [← ih ms (by simpa using hlen), rowValues]
        apply List.filterMap_congr
        intro i _
        simp [Function.comp]
      rw [htail]
      simp only [List.getD_cons_zero]
      by_cases hm : m = 1
      · simp [hm]
      · simp [hm]

theorem sum_eq_maskedVals_length :
    ∀ (ms : List ℕ) (vs : List ℤ), ms.length = vs.length →
      (∀ x ∈ ms, x = 0 ∨ x = 1) → ms.sum = (maskedVals ms vs).length := by
  intro ms
  induction ms with
  | nil =>
    intro vs _ _
    rfl
  | cons m ms ih =>
    intro vs hlen h01
    cases vs with
    | nil => simp at hlen
    | cons v vs =>
      rw [maskedVals, List.sum_cons]
      rcases h01 m (by simp) with rfl | rfl
      · rw [if_neg (by omega)]
        rw [ih vs (by simpa using hlen) (fun x hx => h01 x (by simp [hx]))]
        omega
      · rw [if_pos rfl, List.length_cons]
        rw [ih vs (by simpa using hlen) (fun x hx => h01 x (by simp [hx]))]
        omega

/-- The mask-reconstruction loop (core_logic.py lines 457-464): scan the
shuffled row left to right; while fewer than `count` cells are claimed,
claim the first occurrence of each remaining unclaimed solution value.
Returns the 0/1 mask row, the claimed values in claim order, and the
solution values left unclaimed (`solution_values` is consumed by
`.remove(val)` in the source). -/
def firstMatch (count : ℕ) : List ℤ → List ℤ → List ℤ → List ℕ × List ℤ × List ℤ
  | [], need, claimed => ([], claimed, need)
  | v :: vs, need, claimed =>
      if claimed.length < count ∧ v ∈ need then
        let p := firstMatch count vs (need.erase v) (claimed ++ [v])
        (1 :: p.1, p.2)
      else
        let p := firstMatch count vs need claimed
        (0 :: p.1, p.2)

theorem firstMatch_spec (count : ℕ) :
    ∀ (row need claimed : List ℤ),
      claimed.length + need.length = count →
      (need : Multiset ℤ) ≤ (row : Multiset ℤ) →
      (firstMatch count row need claimed).2.2 = [] ∧
      (firstMatch count row need claimed).1.length = row.length ∧
      (∀ x ∈ (firstMatch count row need claimed).1, x = 0 ∨ x = 1) ∧
      (firstMatch count row need claimed).2.1 =
        claimed ++ maskedVals (firstMatch count row need claimed).1 row ∧
      (maskedVals (firstMatch count row need claimed).1 row : Multiset ℤ) =
        (need : Multiset ℤ) := by
  intro row
  induction row with
  | nil =>
    intro need claimed hlen hsub
    have hneed : need = [] := by
      simpa using hsub
    subst hneed
    exact ⟨rfl, rfl, by simp [firstMatch], by simp [firstMatch, maskedVals],
      by simp [maskedVals]⟩
  | cons v vs ih =>
    intro need claimed hlen hsub
    simp only [firstMatch]
    by_cases hcond : claimed.length < count ∧ v ∈ need
    · rw [if_pos hcond]
      obtain ⟨hlt, hvmem⟩ := hcond
      have hpos : 0 < need.length := List.length_pos.mpr (List.ne_nil_of_mem hvmem)
      have hlen' : (claimed ++ [v]).length + (need.erase v).length = count := by
        rw [List.length_append, List.length_erase_of_mem hvmem]
        simp only [List.length_singleton]
        omega
      have hsub' : ((need.erase v : List ℤ) : Multiset ℤ) ≤ (vs : Multiset ℤ) := by
        have h1 : ((need.erase v : List ℤ) : Multiset ℤ) =
            (need : Multiset ℤ).erase v := Multiset.coe_erase need v
        have h2 := Multiset.erase_le_erase v hsub
        rw [← Multiset.cons_coe] at h2
        rw [Multiset.erase_cons_head] at h2
        rw [h1]
        exact h2
      obtain ⟨h1, h2, h3, h4, h5⟩ := ih (need.erase v) (claimed ++ [v]) hlen' hsub'
      refine ⟨h1, by simp [h2], ?_, ?_, ?_⟩
      · intro x hx
        rcases List.mem_cons.mp hx with rfl | hx'
        · right
          rfl
        · exact h3 x hx'
      · rw [maskedVals, if_pos rfl, h4]
        simp
      · rw [maskedVals, if_pos rfl, ← Multiset.cons_coe, h5, ← Multiset.coe_erase]
        exact Multiset.cons_erase (by simpa using hvmem)
    · rw [if_neg hcond]
      have hneed' : (need : Multiset ℤ) ≤ (vs : Multiset ℤ) := by
        by_cases hv : v ∈ need
        · have hnotlt : ¬ claimed.length < count := fun h => hcond ⟨h, hv⟩
          have hn0 : need.length = 0 := by omega
          rw [List.length_eq_zero.mp hn0]
          simp
        · rw [Multiset.le_iff_count] at hsub ⊢
          intro a
          have ha := hsub a
          by_cases hav : a = v
          · subst hav
            have h0 : Multiset.count a (need : Multiset ℤ) = 0 := by
              rw [Multiset.count_eq_zero]
              simpa using hv
            omega
          · rw [← Multiset.cons_coe, Multiset.count_cons_of_ne hav] at ha
            exact ha
      obtain ⟨h1, h2, h3, h4, h5⟩ := ih need claimed hlen hneed'
      refine ⟨h1, by simp [h2], ?_, ?_, ?_⟩
      · intro x hx
        rcases List.mem_cons.mp hx with rfl | hx'
        · left
          rfl
        · exact h3 x hx'
      · rw [maskedVals, if_neg (by omega)]
        exact h4
      · rw [maskedVals, if_neg (by omega)]
        exact h5

/-- Lines 453-464 of core_logic.py: `row = solution_values + remaining_values`,
`random.shuffle(row)`, then first-match reconstruction of the row's mask.
Returns `(row, solution_row, row_solution_vals)` with the next tick. -/
def reconstructRow (o : Oracle) (t : ℕ) (count : ℕ)
    (solution_values remaining_values : List ℤ) :
    (List ℤ × List ℕ × List ℤ) × ℕ :=
  let p := shuffle o t (solution_values ++ remaining_values)
  let q := firstMatch count p.1 solution_values []
  ((p.1, q.1, q.2.1), p.2)

/-- C10: for every row built by `generate_board_from_solution` (which calls
the reconstruction with `count = len(solution_values)`), the
shuffle-then-first-match reconstruction marks exactly `count` cells and the
multiset of marked cell values equals the multiset of drawn solution values
— even when a decoy value coincides with a not-yet-claimed solution value —
so combining the row's marked cells under the operator equals the stored row
target `reduce(op, solution_values)`. -/
theorem reconstructRow_spec (o : Oracle) (t : ℕ) (op : Op) (count : ℕ)
    (solution_values remaining_values : List ℤ)
    (hcount : count = solution_values.length) :
    (reconstructRow o t count solution_values remaining_values).1.2.1.sum = count ∧
    ((maskedVals (reconstructRow o t count solution_values remaining_values).1.2.1
        (reconstructRow o t count solution_values remaining_values).1.1 : Multiset ℤ) =
      (solution_values : Multiset ℤ)) ∧
    reduceOp op
        (maskedVals (reconstructRow o t count solution_values remaining_values).1.2.1
          (reconstructRow o t count solution_values remaining_values).1.1) =
      reduceOp op solution_values := by
  simp only [reconstructRow]
  have hperm := shuffle_perm o t (solution_values ++ remaining_values)
  have hsub : (solution_values : Multiset ℤ) ≤
      ((shuffle o t (solution_values ++ remaining_values)).1 : Multiset ℤ) := by
    rw [Multiset.coe_eq_coe.mpr hperm]
    have : ((solution_values ++ remaining_values : List ℤ) : Multiset ℤ) =
        (solution_values : Multiset ℤ) + (remaining_values : Multiset ℤ) := by
      simp
    rw [this]
    exact le_add_right (le_refl _)
  obtain ⟨_, hlen, h01, _, h5⟩ := firstMatch_spec count
    (shuffle o t (solution_values ++ remaining_values)).1 solution_values []
    (by simpa using hcount.symm) hsub
  refine ⟨?_, h5, ?_⟩
  · rw [sum_eq_maskedVals_length _ _ hlen h01]
    have hcard := congrArg Multiset.card h5
    simpa [hcount] using hcard
  · have hp : (maskedVals
        (firstMatch count (shuffle o t (solution_values ++ remaining_values)).1
          solution_values []).1
        (shuffle o t (solution_values ++ remaining_values)).1).Perm solution_values :=
      Multiset.coe_eq_coe.mp h5
    cases solution_values with
    | nil =>
      rw [List.Perm.eq_nil hp]
    | cons a l =>
      exact reduceOp_perm op hp (by
        intro h0
        rw [h0] at hp
        exact absurd hp.symm (by simp))

/-- Witness for C10 at a concrete instance where the decoy value `2`
coincides with a not-yet-claimed solution value. -/
theorem reconstructRow_spec_witness :
    (reconstructRow ⟨fun _ => 0⟩ 0 2 [2, 3] [2]).1.2.1.sum = 2 ∧
    ((maskedVals (reconstructRow ⟨fun _ => 0⟩ 0 2 [2, 3] [2]).1.2.1
        (reconstructRow ⟨fun _ => 0⟩ 0 2 [2, 3] [2]).1.1 : Multiset ℤ) =
      (([2, 3] : List ℤ) : Multiset ℤ)) ∧
    reduceOp .add
        (maskedVals (reconstructRow ⟨fun _ => 0⟩ 0 2 [2, 3] [2]).1.2.1
          (reconstructRow ⟨fun _ => 0⟩ 0 2 [2, 3] [2]).1.1) =
      reduceOp .add [2, 3] :=
  reconstructRow_spec ⟨fun _ => 0⟩ 0 .add 2 [2, 3] [2] rfl

/-- Draw `n` values in sequence with the drawing function `f`. -/
def drawN (f : Oracle → ℕ → ℤ × ℕ) (o : Oracle) : ℕ → ℕ → List ℤ × ℕ
  | 0, t => ([], t)
  | n + 1, t =>
      let p := f o t
      let q := drawN f o n p.2
      (p.1 :: q.1, q.2)

/-- The preferred hard-mode multiplication targets (core_logic.py line 347). -/
def preferredTargets : List ℤ :=
  [12, 15, 18, 20, 21, 24, 28, 30, 35, 36, 42, 45, 48, 60, 63, 72]

/-- Hard-mode multiplication solution-value draw (core_logic.py lines
344-373): up to 50 attempts to land the target in the preferred list or on a
3-factor target in `[10, 80]`, then a fallback draw from `[2..7]`. -/
def hardMulDraw (o : Oracle) (valid_digits : List ℤ) (count : ℕ) :
    ℕ → ℕ → List ℤ × ℤ × ℕ
  | 0, t =>
      let p := drawN (fun o t => randChoice o t [2, 3, 4, 5, 6, 7]) o count t
      (p.1, reduceOp .mul p.1, p.2)
  | fuel + 1, t =>
      let p := drawN (fun o t => randChoices o t valid_digits [1, 4, 5, 6, 4, 4, 3, 2]) o count t
      let target := reduceOp .mul p.1
      let factors_count := (([2, 3, 4, 5, 6, 7, 8, 9] : List ℤ).filter fun n =>
        target % n = 0).length
      if target ∈ preferredTargets ∨ (10 ≤ target ∧ target ≤ 80 ∧ 3 ≤ factors_count) then
        (p.1, target, p.2)
      else hardMulDraw o valid_digits count fuel p.2

/-- One pass of hard-mode addition solution values (core_logic.py lines
386-396), limiting the number of 1s to `max_ones = 1`. -/
def hardAddDrawVals (o : Oracle) (valid_digits : List ℤ) :
    ℕ → ℕ → ℕ → List ℤ × ℕ
  | 0, _, t => ([], t)
  | n + 1, ones_used, t =>
      if 1 ≤ ones_used then
        let p := randChoices o t [2, 3, 4, 5, 6, 7, 8, 9] [6, 6, 5, 5, 4, 4, 2, 1]
        let q := hardAddDrawVals o valid_digits n ones_used p.2
        (p.1 :: q.1, q.2)
      else
        let p := randChoices o t valid_digits [1, 6, 6, 5, 5, 4, 4, 2, 1]
        let q := hardAddDrawVals o valid_digits n
          (if p.1 = 1 then ones_used + 1 else ones_used) p.2
        (p.1 :: q.1, q.2)

/-- Hard-mode addition solution-value draw (core_logic.py lines 375-410):
up to 50 attempts to land the target in `range(12, 28)`, then a fallback
whose first value is never 1. -/
def hardAddDraw (o : Oracle) (valid_digits : List ℤ) (count : ℕ) :
    ℕ → ℕ → List ℤ × ℤ × ℕ
  | 0, t =>
      let p := randChoice o t [2, 3, 4, 5, 6]
      let q := drawN (fun o t => randChoices o t [1, 2, 3, 4, 5, 6, 7] [1, 4, 4, 4, 3, 3, 2])
        o (count - 1) p.2
      (p.1 :: q.1, reduceOp .add (p.1 :: q.1), q.2)
  | fuel + 1, t =>
      let p := hardAddDrawVals o valid_digits count 0 t
      let target := reduceOp .add p.1
      if 12 ≤ target ∧ target ≤ 27 then (p.1, target, p.2)
      else hardAddDraw o valid_digits count fuel p.2

/-- Easy/medium solution-value draw (core_logic.py lines 411-428), limiting
1s to `max_ones` (2 for easy, 1 for medium) under addition. -/
def easyMedDrawVals (o : Oracle) (operation : String) (valid_digits : List ℤ)
    (max_ones : ℕ) : ℕ → ℕ → ℕ → List ℤ × ℕ
  | 0, _, t => ([], t)
  | n + 1, ones_used, t =>
      if operation = "+" ∧ max_ones ≤ ones_used then
        let p := randChoice o t [2, 3, 4, 5, 6, 7, 8, 9]
        let q := easyMedDrawVals o operation valid_digits max_ones n ones_used p.2
        (p.1 :: q.1, q.2)
      else if operation = "+" then
        let p := randChoices o t valid_digits [2, 4, 4, 4, 3, 3, 3, 3, 2]
        let q := easyMedDrawVals o operation valid_digits max_ones n
          (if p.1 = 1 then ones_used + 1 else ones_used) p.2
        (p.1 :: q.1, q.2)
      else
        let p := randChoice o t valid_digits
        let q := easyMedDrawVals o operation valid_digits max_ones n ones_used p.2
        (p.1 :: q.1, q.2)

/-- The `while target > max_target` resampling loop (core_logic.py lines
430-433), fuel-bounded: `none` stands for a run that never leaves the
loop within the given fuel. -/
def clampTarget (o : Oracle) (op : Op) (valid_digits : List ℤ) (count : ℕ)
    (max_target : ℤ) : ℕ → List ℤ → ℤ → ℕ → Option (List ℤ × ℤ × ℕ)
  | 0, values, target, t =>
      if max_target < target then none else some (values, target, t)
  | fuel + 1, values, target, t =>
      if max_target < target then
        let p := drawN (fun o t => randChoice o t valid_digits) o count t
        clampTarget o op valid_digits count max_target fuel p.1 (reduceOp op p.1) p.2
      else some (values, target, t)

/-- Repeatedly `confusing.remove(1)` while more than one `1` remains
(core_logic.py lines 238-241); fuel is the list length. -/
def dropExtraOnes : ℕ → List ℤ → List ℤ
  | 0, l => l
  | fuel + 1, l => if 1 < l.count 1 then dropExtraOnes fuel (l.erase 1) else l

/-- The multiplication branch of `get_confusing_numbers` (core_logic.py
lines 150-180).  The float window `0.7*target <= product <= 1.3*target` is
the exact rational condition `7*target <= 10*product <= 13*target`. -/
def getConfusingMul (target : ℤ) (valid_digits : List ℤ) : List ℤ :=
  let factors := valid_digits.filter fun n => 0 < target ∧ target % n = 0
  let confusing := factors
  let confusing := confusing ++ factors.flatMap fun factor =>
    (if target / factor ∈ valid_digits then [target / factor] else []) ++
    valid_digits.filter fun n =>
      7 * target ≤ 10 * (factor * n) ∧ 10 * (factor * n) ≤ 13 * target ∧
        factor * n ≠ target
  let confusing := confusing ++ (([2, 3, 4, 6] : List ℤ).flatMap fun cf =>
    if cf ∈ valid_digits then
      cf :: (([2, 3] : List ℤ).filterMap fun mult =>
        if cf * mult ∈ valid_digits then some (cf * mult) else none)
    else [])
  if 3 ≤ factors.length then confusing ++ valid_digits.filter (· ≤ 6)
  else confusing

/-- The addition branch of `get_confusing_numbers` (core_logic.py lines
182-241).  `sorted(..., reverse=True)` over the insertion-ordered dict keys
is the stable descending sort by contribution count. -/
def getConfusingAdd (target : ℤ) (valid_digits : List ℤ) : List ℤ :=
  let confusing : List ℤ := if target ≤ 6 then [1] else []
  let middle_range := valid_digits.filter fun n => 2 ≤ n ∧ n ≤ 7
  let contribution : ℤ → ℤ := fun n =>
    (middle_range.map fun other =>
      (if n ≠ other ∧ 2 ≤ n + other ∧ n + other ≤ target then (1 : ℤ) else 0) +
      (middle_range.map fun third =>
        if n ≠ other ∧ n ≠ third ∧ other ≠ third ∧ 3 ≤ n + other + third ∧
            n + other + third ≤ target then (1 : ℤ) else 0).sum).sum
  let versatile_numbers := stableSort (fun a b => contribution b ≤ contribution a)
    middle_range
  let confusing := confusing ++ versatile_numbers.take 5
  let confusing := confusing ++ ([target / 2, target / 3, target / 4].flatMap fun frac =>
    (([-2, -1, 0, 1, 2] : List ℤ).filterMap fun offset =>
      if frac + offset ∈ valid_digits ∧ 1 < frac + offset then some (frac + offset)
      else none))
  let confusing := confusing ++ (valid_digits.flatMap fun n =>
    if 2 ≤ n ∧ n < target then
      if target - n ∈ valid_digits ∧ target - n ≠ n ∧ 1 < target - n then
        [n, target - n]
      else []
    else [])
  let confusing := if 10 ≤ target then
      confusing ++ valid_digits.filter fun n => target / 4 ≤ n ∧ n ≤ target / 2 ∧ 1 < n
    else confusing
  dropExtraOnes confusing.length confusing

/-- The expansion loop of `get_confusing_numbers` (core_logic.py lines
253-267); each iteration appends a digit not yet present, so 4 iterations
suffice for the `len(confusing) < 4` bound. -/
def gcExpand (operation : String) (valid_digits : List ℤ) (o : Oracle) :
    ℕ → List ℤ → ℕ → List ℤ × ℕ
  | 0, confusing, t => (confusing, t)
  | fuel + 1, confusing, t =>
      if confusing.length < 4 ∧ confusing.length < valid_digits.length then
        let remaining := valid_digits.filter (· ∉ confusing)
        if remaining ≠ [] then
          if operation = "+" then
            let non_ones := remaining.filter (· ≠ 1)
            if non_ones ≠ [] then
              let p := randChoice o t non_ones
              gcExpand operation valid_digits o fuel (confusing ++ [p.1]) p.2
            else
              let p := randChoice o t remaining
              gcExpand operation valid_digits o fuel (confusing ++ [p.1]) p.2
          else
            let p := randChoice o t remaining
            gcExpand operation valid_digits o fuel (confusing ++ [p.1]) p.2
        else (confusing, t)
      else (confusing, t)

/-- `get_confusing_numbers(target, operation, valid_digits)` (core_logic.py
lines 143-269).  `list(set(confusing))` is modelled as `dedup` (first
occurrences kept); only the member set of the list is observable downstream,
through `random.choice`, which the oracle absorbs. -/
def get_confusing_numbers (target : ℤ) (operation : String) (valid_digits : List ℤ)
    (o : Oracle) (t : ℕ) : List ℤ × ℕ :=
  let confusing := if operation = "*" then getConfusingMul target valid_digits
    else getConfusingAdd target valid_digits
  let confusing := confusing.dedup
  let confusing := if operation = "+" then
      (let confusing_no_ones := confusing.filter (· ≠ 1)
       if 1 ∈ confusing ∧ 3 ≤ confusing_no_ones.length then confusing_no_ones ++ [1]
       else confusing)
    else confusing
  let p := gcExpand operation valid_digits o 4 confusing t
  (if p.1 = [] then valid_digits else p.1, p.2)

/-- `generate_smart_numbers(target, operation, valid_digits, difficulty)`
(core_logic.py lines 271-295). -/
def generate_smart_numbers (target : ℤ) (operation : String) (valid_digits : List ℤ)
    (difficulty : String) (o : Oracle) (t : ℕ) : List ℤ × ℕ :=
  if difficulty = "easy" then
    if operation = "+" ∧ target < 9 then (valid_digits.filter (· ≤ target), t)
    else if operation = "*" ∧ target < 20 then (valid_digits.filter (· ≤ 5), t)
    else (valid_digits, t)
  else if difficulty = "medium" then
    if operation = "+" ∧ target < 15 then (valid_digits.filter (· ≤ target + 2), t)
    else if operation = "*" ∧ target < 50 then (valid_digits.filter (· ≤ 7), t)
    else (valid_digits, t)
  else get_confusing_numbers target operation valid_digits o t

/-- `max(l)` over the (positive) digit lists passed by the source. -/
def pyMax (l : List ℤ) : ℤ := l.foldl max 0

/-- `get_ultra_confusing_number(...)` (core_logic.py lines 612-696):
score every digit for decoy potential and draw among the top 3 of the
stable descending sort by score. -/
def get_ultra_confusing_number (o : Oracle) (t : ℕ) (row_idx col_idx : ℕ)
    (row_target : ℤ) (col_targets : List ℤ) (valid_digits : List ℤ)
    (existing_board_numbers : List ℤ) (board : List (List ℤ))
    (solution_grid : Mask) : ℤ × ℕ :=
  let col_target := col_targets.getD col_idx 0
  let row_factors := valid_digits.filter fun n => row_target % n = 0
  let col_factors := valid_digits.filter fun n => col_target % n = 0
  let common_factors := row_factors.filter (· ∈ col_factors)
  let digitScore : ℤ → ℤ := fun digit =>
    let s1 : ℤ :=
      let marked_positions := (List.range (board.getD row_idx []).length).filter
        fun i => (solution_grid.getD row_idx []).getD i 0 = 1 ∧ i ≠ col_idx
      if marked_positions ≠ [] then
        let marked_values := marked_positions.map fun i => (board.getD row_idx []).getD i 0
        let opr := if 15 < row_target then Op.mul else Op.add
        if reduceOp opr (marked_values ++ [digit]) = row_target then 120 else 0
      else 0
    let s2 : ℤ :=
      let marked_col_positions := (List.range board.length).filter
        fun i => i ≠ row_idx ∧ (solution_grid.getD i []).getD col_idx 0 = 1
      if marked_col_positions ≠ [] then
        let marked_col_values := marked_col_positions.map
          fun i => (board.getD i []).getD col_idx 0
        let opc := if 15 < col_target then Op.mul else Op.add
        if reduceOp opc (marked_col_values ++ [digit]) = col_target then 120 else 0
      else 0
    let s3 : ℤ :=
      if digit ∈ row_factors ∧ digit ∈ col_factors then 100
      else if digit ∈ row_factors then 60
      else if digit ∈ col_factors then 60
      else 0
    let combo : ℤ :=
      (row_factors.map fun other =>
        if other ≠ digit ∧ digit * other ≤ pyMax valid_digits * 2 then (20 : ℤ)
        else 0).sum +
      (col_factors.map fun other =>
        if other ≠ digit ∧ digit * other ≤ pyMax valid_digits * 2 then (20 : ℤ)
        else 0).sum
    let s4 := min combo 80
    let s5 : ℤ := if digit ∈ existing_board_numbers then -10 else 0
    let s6 : ℤ := if digit ≤ 4 then 30 else 0
    s1 + s2 + s3 + s4 + s5 + s6
  let confusion_candidates := (common_factors.map fun f => (f, (150 : ℤ))) ++
    (valid_digits.filterMap fun digit =>
      if 0 < digitScore digit then some (digit, digitScore digit) else none)
  if confusion_candidates ≠ [] then
    let sorted := stableSort (fun p q => q.2 ≤ p.2) confusion_candidates
    randChoice o t ((sorted.take 3).map Prod.fst)
  else if common_factors ≠ [] then randChoice o t common_factors
  else
    let small_factors := valid_digits.filter (· ≤ 4)
    if small_factors ≠ [] then randChoice o t small_factors
    else randChoice o t valid_digits

/-- One cell of the hard-mode second pass (core_logic.py lines 481-493):
non-marked cells are replaced in row-major order by ultra-confusing decoys;
marked cells are untouched. -/
def secondPassCell (o : Oracle) (size : ℕ) (row_solutions col_targets : List ℤ)
    (valid_digits : List ℤ) (solution_grid : Mask)
    (acc : List (List ℤ) × ℕ) (rc : ℕ × ℕ) : List (List ℤ) × ℕ :=
  if (solution_grid.getD rc.1 []).getD rc.2 0 = 0 then
    let existing_numbers := ((List.range size).filter (· ≠ rc.2)).map
      fun k => (acc.1.getD rc.1 []).getD k 0
    let p := get_ultra_confusing_number o acc.2 rc.1 rc.2
      (row_solutions.getD rc.1 0) col_targets valid_digits existing_numbers
      acc.1 solution_grid
    (acc.1.set rc.1 ((acc.1.getD rc.1 []).set rc.2 p.1), p.2)
  else acc

/-- The hard-mode second pass (core_logic.py lines 480-493). -/
def secondPass (o : Oracle) (size : ℕ) (row_solutions col_targets : List ℤ)
    (valid_digits : List ℤ) (solution_grid : Mask) (board : List (List ℤ))
    (t : ℕ) : List (List ℤ) × ℕ :=
  ((List.range size).flatMap fun r => (List.range size).map fun c => (r, c)).foldl
    (secondPassCell o size row_solutions col_targets valid_digits solution_grid)
    (board, t)

/-- The valid digit domain (core_logic.py lines 314-317). -/
def validDigits (operation : String) : List ℤ :=
  if operation = "*" then [2, 3, 4, 5, 6, 7, 8, 9] else [1, 2, 3, 4, 5, 6, 7, 8, 9]

/-- One row of the generator's main loop (core_logic.py lines 322-468):
count draw, solution-value draw by difficulty, target clamping, decoy fill,
shuffle and first-match mask reconstruction.  `none` models the
`random.sample(range(size), count)` `ValueError` when `count > size` and an
exhausted clamping loop.  Returns `((row, solution_row, target),
has_single_cell_row, tick)`.  The difficulty-branched solution-value draw
(core_logic.py lines 344-428) is factored out as `solutionDraw`. -/
def solutionDraw (o : Oracle) (operation difficulty : String)
    (valid_digits : List ℤ) (count : ℕ) (t : ℕ) : List ℤ × ℤ × ℕ :=
  if difficulty = "hard" then
    if operation = "*" then hardMulDraw o valid_digits count 50 t
    else hardAddDraw o valid_digits count 50 t
  else
    let max_ones : ℕ := if difficulty = "easy" then 2 else 1
    let p := easyMedDrawVals o operation valid_digits max_ones count 0 t
    (p.1, reduceOp (opOf operation) p.1, p.2)

def buildRow (o : Oracle) (fuel : ℕ) (operation : String) (size : ℕ)
    (max_target : ℤ) (difficulty : String) (valid_digits : List ℤ)
    (has_single_cell_row : Bool) (t : ℕ) :
    Option ((List ℤ × List ℕ × ℤ) × Bool × ℕ) :=
  let op := opOf operation
  let weights100 : List ℤ := if has_single_cell_row then [0, 44, 44, 6, 6]
    else [10, 40, 40, 5, 5]
  let pc := weighted_choiceO o t weights100
  let count := pc.1
  let has1 := has_single_cell_row || decide (count = 1)
  if size < count then none
  else
    let drawn := solutionDraw o operation difficulty valid_digits count pc.2
    match clampTarget o op valid_digits count max_target fuel drawn.1 drawn.2.1
      drawn.2.2 with
    | none => none
    | some (solution_values, target, t) =>
        let remaining_count := size - count
        let sd := generate_smart_numbers target operation valid_digits difficulty o t
        let rv := drawN (fun o t => randChoice o t sd.1) o remaining_count sd.2
        let rec_ := reconstructRow o rv.2 count solution_values rv.1
        some ((rec_.1.1, rec_.1.2.1, target), has1, rec_.2)

/-- The generator's row loop (core_logic.py lines 322-468), threading the
single-cell-row flag; builds `(board, row_solutions, solution_grid)`. -/
def buildRows (o : Oracle) (fuel : ℕ) (operation : String) (size : ℕ)
    (max_target : ℤ) (difficulty : String) (valid_digits : List ℤ) :
    ℕ → Bool → ℕ → Option (List (List ℤ) × List ℤ × Mask × ℕ)
  | 0, _, t => some ([], [], [], t)
  | n + 1, has1, t =>
      match buildRow o fuel operation size max_target difficulty valid_digits has1 t with
      | none => none
      | some (rowdata, has1', t') =>
          match buildRows o fuel operation size max_target difficulty valid_digits n
            has1' t' with
          | none => none
          | some (board, row_solutions, solution_grid, t'') =>
              some (rowdata.1 :: board, rowdata.2.2 :: row_solutions,
                rowdata.2.1 :: solution_grid, t'')

/-- The column-target computation (core_logic.py lines 470-477):
`reduce(op, marked column values)` or `0` for an unmarked column; `none`
models the restart when a column target exceeds `max_target`. -/
def colTargetsGo (op : Op) (size : ℕ) (max_target : ℤ) (board : List (List ℤ))
    (solution_grid : Mask) : List ℕ → Option (List ℤ)
  | [] => some []
  | j :: js =>
      let col_values := colValues solution_grid board size j
      let target := if col_values = [] then 0 else reduceOp op col_values
      if max_target < target then none
      else
        match colTargetsGo op size max_target board solution_grid js with
        | none => none
        | some rest => some (target :: rest)

/-- One attempt of `generate_board_from_solution(operation, size, max_target,
difficulty)` (core_logic.py lines 297-503).  `none` covers every path on
which the source restarts from scratch (over-large column target,
insufficient hard-mode confusion) or does not return (the unbounded
resampling loop, fuel-bounded here; the `random.sample` `ValueError`); the
Python function returns a tuple exactly when some attempt returns `some`. -/
def generate_board_from_solution (o : Oracle) (fuel : ℕ) (operation : String)
    (size : ℕ) (max_target : ℤ) (difficulty : String) :
    Option (List (List ℤ) × List ℤ × List ℤ × Mask) :=
  let valid_digits := validDigits operation
  match buildRows o fuel operation size max_target difficulty valid_digits size
    false 0 with
  | none => none
  | some (board, row_solutions, solution_grid, t) =>
      match colTargetsGo (opOf operation) size max_target board solution_grid
        (List.range size) with
      | none => none
      | some col_targets =>
          if difficulty = "hard" then
            let bp := secondPass o size row_solutions col_targets valid_digits
              solution_grid board t
            let confusion_score := evaluate_board_confusion bp.1 row_solutions
              col_targets solution_grid valid_digits
            if confusion_score < 400 then none
            else some (bp.1, row_solutions, col_targets, solution_grid)
          else some (board, row_solutions, col_targets, solution_grid)

/-- C7: every board returned by a hard-mode generation attempt scores at
least 400 on the confusion metric; attempts scoring below the threshold do
not return (the source restarts from scratch). -/
theorem hard_boards_confusing (o : Oracle) (fuel : ℕ) (operation : String)
    (size : ℕ) (max_target : ℤ)
    (b : List (List ℤ)) (rt ct : List ℤ) (sg : Mask)
    (hgen : generate_board_from_solution o fuel operation size max_target "hard"
      = some (b, rt, ct, sg)) :
    400 ≤ evaluate_board_confusion b rt ct sg (validDigits operation) := by
  unfold generate_board_from_solution at hgen
  simp only [if_true] at hgen
  split at hgen
  · exact absurd hgen (by simp)
  next board row_solutions solution_grid t heq =>
    split at hgen
    · exact absurd hgen (by simp)
    next col_targets heq2 =>
      split at hgen
      · exact absurd hgen (by simp)
      next hscore =>
        simp only [Option.some.injEq, Prod.mk.injEq] at hgen
        obtain ⟨h1, h2, h3, h4⟩ := hgen
        subst h1; subst h2; subst h3; subst h4
        omega

/-- Witness for C7 at a concrete oracle: the constant-zero stream produces a
multiplication board, and the theorem yields its confusion bound. -/
theorem hard_boards_confusing_witness :
    400 ≤ evaluate_board_confusion
      [[2, 2, 2, 2, 2], [2, 2, 2, 2, 2], [2, 2, 2, 2, 2], [2, 2, 2, 2, 2],
        [2, 2, 2, 2, 2]]
      [2, 2, 2, 2, 2] [32, 0, 0, 0, 0]
      [[1, 0, 0, 0, 0], [1, 0, 0, 0, 0], [1, 0, 0, 0, 0], [1, 0, 0, 0, 0],
        [1, 0, 0, 0, 0]]
      (validDigits "*") :=
  hard_boards_confusing ⟨fun _ => 0⟩ 10 "*" 5 99 _ _ _ _ (by decide)

/-! ## Solvability of generated boards (claim C2 support) -/

theorem randChoice_mem {o : Oracle} {t : ℕ} {l : List ℤ} (h : l ≠ []) :
    (randChoice o t l).1 ∈ l :=
  getD_mod_mem h _

theorem randChoices_mem {o : Oracle} {t : ℕ} {l : List ℤ} (w : List ℕ)
    (h : l ≠ []) : (randChoices o t l w).1 ∈ l := by
  rw [randChoices]
  simp only
  set idxs := (List.range l.length).filter (fun i => decide (0 < w.getD i 0)) with hidxs
  have hj : idxs.getD (o.idx t % idxs.length) 0 < l.length := by
    rcases eq_or_ne idxs [] with h0 | h0
    · rw [h0]
      simpa using List.length_pos.mpr h
    · have hlt : o.idx t % idxs.length < idxs.length :=
        Nat.mod_lt _ (List.length_pos.mpr h0)
      have hmem : idxs.getD (o.idx t % idxs.length) 0 ∈ idxs := by
        rw [List.getD_eq_getElem _ _ hlt]
        exact List.getElem_mem _
      rw [hidxs, List.mem_filter, List.mem_range] at hmem
      exact hmem.1
  rw [List.getD_eq_getElem _ _ hj]
  exact List.getElem_mem _

theorem weighted_choice_go_ge {α : Type} [AddCommMonoid α] [LinearOrder α]
    (r : α) : ∀ (ws : List α) (upto : α) (i : ℕ), ws ≠ [] →
      i + 1 ≤ weighted_choice_go r ws upto i := by
  intro ws
  induction ws with
  | nil =>
    intro _ _ h
    exact absurd rfl h
  | cons w ws ih =>
    intro upto i _
    rw [weighted_choice_go]
    split
    · omega
    · rcases eq_or_ne ws [] with rfl | hne
      · rw [weighted_choice_go]
      · have := ih (upto + w) (i + 1) hne
        omega

theorem weighted_choice_pos {α : Type} [AddCommMonoid α] [LinearOrder α]
    (r : α) (w : α) (ws : List α) : 1 ≤ weighted_choice (w :: ws) r :=
  weighted_choice_go_ge r (w :: ws) 0 0 (by simp)

theorem drawN_length (f : Oracle → ℕ → ℤ × ℕ) (o : Oracle) :
    ∀ (n t : ℕ), (drawN f o n t).1.length = n := by
  intro n
  induction n with
  | zero =>
    intro t
    rfl
  | succ m ih =>
    intro t
    rw [drawN]
    simp [ih]

theorem drawN_forall {f : Oracle → ℕ → ℤ × ℕ} {o : Oracle} (P : ℤ → Prop)
    (hf : ∀ t, P (f o t).1) : ∀ (n t : ℕ), ∀ x ∈ (drawN f o n t).1, P x := by
  intro n
  induction n with
  | zero =>
    intro t x hx
    exact absurd hx (by simp [drawN])
  | succ m ih =>
    intro t x hx
    rw [drawN] at hx
    rcases List.mem_cons.mp hx with rfl | hx'
    · exact hf t
    · exact ih _ x hx'

theorem hardMulDraw_spec (o : Oracle) {valid_digits : List ℤ} (count : ℕ)
    (hvne : valid_digits ≠ []) :
    ∀ (fuel t : ℕ),
      (hardMulDraw o valid_digits count fuel t).1.length = count ∧
      (∀ x ∈ (hardMulDraw o valid_digits count fuel t).1,
        x ∈ valid_digits ∨ 2 ≤ x) ∧
      (hardMulDraw o valid_digits count fuel t).2.1 =
        reduceOp .mul (hardMulDraw o valid_digits count fuel t).1 := by
  intro fuel
  induction fuel with
  | zero =>
    intro t
    refine ⟨drawN_length _ _ _ _, ?_, rfl⟩
    intro x hx
    right
    have hmem := drawN_forall (· ∈ ([2, 3, 4, 5, 6, 7] : List ℤ))
      (fun u => randChoice_mem (by simp)) count t x hx
    have h27 : ∀ y ∈ ([2, 3, 4, 5, 6, 7] : List ℤ), 2 ≤ y := by decide
    exact h27 x hmem
  | succ m ih =>
    intro t
    rw [hardMulDraw]
    split
    · refine ⟨drawN_length _ _ _ _, ?_, rfl⟩
      intro x hx
      left
      exact drawN_forall (· ∈ valid_digits)
        (fun u => randChoices_mem _ hvne) count t x hx
    · exact ih _

theorem hardAddDrawVals_spec (o : Oracle) {valid_digits : List ℤ}
    (hvne : valid_digits ≠ []) :
    ∀ (n ones t : ℕ),
      (hardAddDrawVals o valid_digits n ones t).1.length = n ∧
      ∀ x ∈ (hardAddDrawVals o valid_digits n ones t).1,
        x ∈ valid_digits ∨ 2 ≤ x := by
  intro n
  induction n with
  | zero =>
    intro ones t
    exact ⟨rfl, by simp [hardAddDrawVals]⟩
  | succ m ih =>
    intro ones t
    rw [hardAddDrawVals]
    split
    · refine ⟨by simp [(ih ones _).1], ?_⟩
      intro x hx
      rcases List.mem_cons.mp hx with rfl | hx'
      · right
        have hmem := @randChoices_mem o t [2, 3, 4, 5, 6, 7, 8, 9]
          [6, 6, 5, 5, 4, 4, 2, 1] (by simp)
        have h29 : ∀ y ∈ ([2, 3, 4, 5, 6, 7, 8, 9] : List ℤ), 2 ≤ y := by decide
        exact h29 _ hmem
      · exact (ih ones _).2 x hx'
    · refine ⟨by simp [(ih _ _).1], ?_⟩
      intro x hx
      rcases List.mem_cons.mp hx with rfl | hx'
      · left
        exact randChoices_mem _ hvne
      · exact (ih _ _).2 x hx'

theorem hardAddDraw_spec (o : Oracle) {valid_digits : List ℤ} {count : ℕ}
    (hvne : valid_digits ≠ []) (hc : 1 ≤ count) :
    ∀ (fuel t : ℕ),
      (hardAddDraw o valid_digits count fuel t).1.length = count ∧
      (∀ x ∈ (hardAddDraw o valid_digits count fuel t).1,
        x ∈ valid_digits ∨ 1 ≤ x) ∧
      (hardAddDraw o valid_digits count fuel t).2.1 =
        reduceOp .add (hardAddDraw o valid_digits count fuel t).1 := by
  intro fuel
  induction fuel with
  | zero =>
    intro t
    refine ⟨?_, ?_, rfl⟩
    · simp only [hardAddDraw, List.length_cons, drawN_length]
      omega
    · intro x hx
      rw [hardAddDraw] at hx
      rcases List.mem_cons.mp hx with rfl | hx'
      · right
        have hmem := randChoice_mem (o := o) (t := t)
          (l := [2, 3, 4, 5, 6]) (by simp)
        have h26 : ∀ y ∈ ([2, 3, 4, 5, 6] : List ℤ), 1 ≤ y := by decide
        exact h26 _ hmem
      · right
        have hmem := drawN_forall (· ∈ ([1, 2, 3, 4, 5, 6, 7] : List ℤ))
          (fun u => randChoices_mem _ (by simp)) (count - 1) _ x hx'
        have h17 : ∀ y ∈ ([1, 2, 3, 4, 5, 6, 7] : List ℤ), 1 ≤ y := by decide
        exact h17 x hmem
  | succ m ih =>
    intro t
    rw [hardAddDraw]
    split
    · refine ⟨(hardAddDrawVals_spec o hvne count 0 t).1, ?_, rfl⟩
      intro x hx
      rcases (hardAddDrawVals_spec o hvne count 0 t).2 x hx with h | h
      · exact Or.inl h
      · exact Or.inr (by omega)
    · exact ih _

theorem easyMedDrawVals_spec (o : Oracle) (operation : String)
    {valid_digits : List ℤ} (max_ones : ℕ) (hvne : valid_digits ≠ []) :
    ∀ (n ones t : ℕ),
      (easyMedDrawVals o operation valid_digits max_ones n ones t).1.length = n ∧
      ∀ x ∈ (easyMedDrawVals o operation valid_digits max_ones n ones t).1,
        x ∈ valid_digits ∨ 2 ≤ x := by
  intro n
  induction n with
  | zero =>
    intro ones t
    exact ⟨rfl, by simp [easyMedDrawVals]⟩
  | succ m ih =>
    intro ones t
    rw [easyMedDrawVals]
    split
    · refine ⟨by simp [(ih ones _).1], ?_⟩
      intro x hx
      rcases List.mem_cons.mp hx with rfl | hx'
      · right
        have hmem := @randChoice_mem o t [2, 3, 4, 5, 6, 7, 8, 9] (by simp)
        have h29 : ∀ y ∈ ([2, 3, 4, 5, 6, 7, 8, 9] : List ℤ), 2 ≤ y := by decide
        exact h29 _ hmem
      · exact (ih ones _).2 x hx'
    · split
      · refine ⟨by simp [(ih _ _).1], ?_⟩
        intro x hx
        rcases List.mem_cons.mp hx with rfl | hx'
        · left
          exact randChoices_mem _ hvne
        · exact (ih _ _).2 x hx'
      · refine ⟨by simp [(ih ones _).1], ?_⟩
        intro x hx
        rcases List.mem_cons.mp hx with rfl | hx'
        · left
          exact randChoice_mem hvne
        · exact (ih ones _).2 x hx'

theorem clampTarget_spec (o : Oracle) (op : Op) {valid_digits : List ℤ}
    (count : ℕ) (mt : ℤ) (hvne : valid_digits ≠ []) :
    ∀ (fuel : ℕ) (values : List ℤ) (target : ℤ) (t : ℕ)
      {sv : List ℤ} {tg : ℤ} {t' : ℕ},
      values.length = count → (∀ x ∈ values, x ∈ valid_digits ∨ 1 ≤ x) →
      target = reduceOp op values →
      clampTarget o op valid_digits count mt fuel values target t
        = some (sv, tg, t') →
      sv.length = count ∧ (∀ x ∈ sv, x ∈ valid_digits ∨ 1 ≤ x) ∧
        tg = reduceOp op sv := by
  intro fuel
  induction fuel with
  | zero =>
    intro values target t sv tg t' hlen hpos htg h
    rw [clampTarget] at h
    split at h
    · exact absurd h (by simp)
    · simp only [Option.some.injEq, Prod.mk.injEq] at h
      obtain ⟨rfl, rfl, rfl⟩ := h
      exact ⟨hlen, hpos, htg⟩
  | succ m ih =>
    intro values target t sv tg t' hlen hpos htg h
    rw [clampTarget] at h
    split at h
    · exact ih _ _ _ (drawN_length _ _ _ _)
        (fun x hx => Or.inl (drawN_forall (· ∈ valid_digits)
          (fun u => randChoice_mem hvne) count t x hx)) rfl h
    · simp only [Option.some.injEq, Prod.mk.injEq] at h
      obtain ⟨rfl, rfl, rfl⟩ := h
      exact ⟨hlen, hpos, htg⟩

theorem solutionDraw_spec (o : Oracle) (operation difficulty : String)
    {valid_digits : List ℤ} {count : ℕ} (t : ℕ)
    (hvne : valid_digits ≠ []) (hc : 1 ≤ count) :
    (solutionDraw o operation difficulty valid_digits count t).1.length = count ∧
    (∀ x ∈ (solutionDraw o operation difficulty valid_digits count t).1,
      x ∈ valid_digits ∨ 1 ≤ x) ∧
    (solutionDraw o operation difficulty valid_digits count t).2.1 =
      reduceOp (opOf operation) (solutionDraw o operation difficulty valid_digits count t).1 := by
  rw [solutionDraw]
  split
  · split
    case isTrue hop =>
      rw [hop, opOf, if_pos rfl]
      obtain ⟨h1, h2, h3⟩ := hardMulDraw_spec o count hvne 50 t
      refine ⟨h1, ?_, h3⟩
      intro x hx
      rcases h2 x hx with h | h
      · exact Or.inl h
      · exact Or.inr (by omega)
    case isFalse hop =>
      rw [opOf, if_neg hop]
      exact hardAddDraw_spec o hvne hc 50 t
  · refine ⟨(easyMedDrawVals_spec o operation _ hvne count 0 t).1, ?_, rfl⟩
    intro x hx
    rcases (easyMedDrawVals_spec o operation _ hvne count 0 t).2 x hx with h | h
    · exact Or.inl h
    · exact Or.inr (by omega)

theorem reconstructRow_props (o : Oracle) (t : ℕ) (count : ℕ)
    (sv rv : List ℤ) (hcount : count = sv.length) :
    (reconstructRow o t count sv rv).1.1.length = sv.length + rv.length ∧
    (reconstructRow o t count sv rv).1.2.1.length =
      (reconstructRow o t count sv rv).1.1.length ∧
    (∀ x ∈ (reconstructRow o t count sv rv).1.2.1, x = 0 ∨ x = 1) ∧
    ((maskedVals (reconstructRow o t count sv rv).1.2.1
        (reconstructRow o t count sv rv).1.1 : Multiset ℤ) = (sv : Multiset ℤ)) := by
  simp only [reconstructRow]
  have hperm := shuffle_perm o t (sv ++ rv)
  have hsub : (sv : Multiset ℤ) ≤ ((shuffle o t (sv ++ rv)).1 : Multiset ℤ) := by
    rw [Multiset.coe_eq_coe.mpr hperm]
    have hco : ((sv ++ rv : List ℤ) : Multiset ℤ) =
        (sv : Multiset ℤ) + (rv : Multiset ℤ) := by
      simp
    rw [hco]
    exact le_add_right (le_refl _)
  obtain ⟨_, hlen, h01, _, h5⟩ := firstMatch_spec count
    (shuffle o t (sv ++ rv)).1 sv [] (by simpa using hcount.symm) hsub
  refine ⟨?_, hlen, h01, h5⟩
  rw [hperm.length_eq]
  simp

theorem maskedVals_congr : ∀ (ms : List ℕ) (v1 v2 : List ℤ),
    v1.length = v2.length →
    (∀ c, ms.getD c 0 = 1 → v1.getD c 0 = v2.getD c 0) →
    maskedVals ms v1 = maskedVals ms v2 := by
  intro ms
  induction ms with
  | nil =>
    intro v1 v2 _ _
    rfl
  | cons m ms ih =>
    intro v1 v2 hlen hagree
    cases v1 with
    | nil =>
      rw [(List.length_eq_zero.mp hlen.symm)]
    | cons a v1 =>
      cases v2 with
      | nil => simp at hlen
      | cons b v2 =>
        have htail : maskedVals ms v1 = maskedVals ms v2 := by
          refine ih v1 v2 (by simpa using hlen) ?_
          intro c hc
          have := hagree (c + 1) (by simpa using hc)
          simpa using this
        by_cases hm : m = 1
        · have hab : a = b := by
            have := hagree 0 (by simpa using hm)
            simpa using this
          rw [maskedVals, maskedVals, if_pos hm, if_pos hm, hab, htail]
        · rw [maskedVals, maskedVals, if_neg hm, if_neg hm, htail]

theorem getD_mem_maskedVals : ∀ (ms : List ℕ) (vs : List ℤ) (c : ℕ),
    ms.length = vs.length → ms.getD c 0 = 1 →
    vs.getD c 0 ∈ maskedVals ms vs := by
  intro ms
  induction ms with
  | nil =>
    intro vs c _ hc
    simp at hc
  | cons m ms ih =>
    intro vs c hlen hc
    cases vs with
    | nil => simp at hlen
    | cons v vs =>
      cases c with
      | zero =>
        have hm : m = 1 := by simpa using hc
        rw [maskedVals, if_pos hm]
        simp
      | succ c =>
        have hc' : ms.getD c 0 = 1 := by simpa using hc
        have hmem := ih vs c (by simpa using hlen) hc'
        rw [maskedVals]
        split
        · exact List.mem_cons_of_mem _ (by simpa using hmem)
        · simpa using hmem

theorem maskedVals_getD_mem : ∀ (ms : List ℕ) (vs : List ℤ),
    ∀ x ∈ maskedVals ms vs, x ∈ vs := by
  intro ms
  induction ms with
  | nil =>
    intro vs x hx
    exact absurd hx (by simp [maskedVals])
  | cons m ms ih =>
    intro vs x hx
    cases vs with
    | nil => exact absurd hx (by simp [maskedVals])
    | cons v vs =>
      rw [maskedVals] at hx
      split at hx
      · rcases List.mem_cons.mp hx with rfl | hx'
        · simp
        · exact List.mem_cons_of_mem _ (ih vs x hx')
      · exact List.mem_cons_of_mem _ (ih vs x hx)

theorem secondPassCell_inv (o : Oracle) (size : ℕ)
    (row_solutions col_targets valid_digits : List ℤ) (sg : Mask)
    (acc : List (List ℤ) × ℕ) (rc : ℕ × ℕ) :
    (secondPassCell o size row_solutions col_targets valid_digits sg acc rc).1.length
      = acc.1.length ∧
    (∀ r, ((secondPassCell o size row_solutions col_targets valid_digits sg acc rc).1.getD
        r []).length = (acc.1.getD r []).length) ∧
    (∀ r c, (sg.getD r []).getD c 0 = 1 →
      ((secondPassCell o size row_solutions col_targets valid_digits sg acc rc).1.getD
          r []).getD c 0 = (acc.1.getD r []).getD c 0) := by
  rw [secondPassCell]
  split
  case isFalse h =>
    exact ⟨rfl, fun r => rfl, fun r c _ => rfl⟩
  case isTrue h =>
    simp only
    have hrow : ∀ (v : ℤ) (r : ℕ),
        (acc.1.set rc.1 ((acc.1.getD rc.1 []).set rc.2 v)).getD r [] =
        if r = rc.1 ∧ rc.1 < acc.1.length then
          ((acc.1.getD rc.1 []).set rc.2 v) else acc.1.getD r [] := by
      intro v r
      by_cases hr : r = rc.1
      · subst hr
        by_cases hlt : rc.1 < acc.1.length
        · rw [if_pos ⟨rfl, hlt⟩, List.getD_eq_getElem?_getD, List.getElem?_set_self hlt]
          rfl
        · rw [if_neg (by tauto), List.getD_eq_getElem?_getD, List.getD_eq_getElem?_getD,
            List.getElem?_eq_none (by rw [List.length_set]; omega),
            List.getElem?_eq_none (by omega)]
      · rw [if_neg (by tauto), List.getD_eq_getElem?_getD,
          List.getElem?_set_ne (by omega), ← List.getD_eq_getElem?_getD]
    refine ⟨by simp, ?_, ?_⟩
    · intro r
      rw [hrow _ r]
      split
      case isTrue hcond =>
        rw [List.length_set]
        rw [hcond.1]
      case isFalse => rfl
    · intro r c hmark
      rw [hrow _ r]
      split
      case isTrue hcond =>
        obtain ⟨rfl, _⟩ := hcond
        have hne : c ≠ rc.2 := by
          intro hceq
          subst hceq
          rw [hmark] at h
          exact absurd h (by simp)
        rw [List.getD_eq_getElem?_getD, List.getElem?_set_ne (by omega),
          ← List.getD_eq_getElem?_getD]
      case isFalse => rfl

theorem secondPass_foldl_inv (o : Oracle) (size : ℕ)
    (row_solutions col_targets valid_digits : List ℤ) (sg : Mask) :
    ∀ (pairs : List (ℕ × ℕ)) (acc : List (List ℤ) × ℕ),
      (pairs.foldl (secondPassCell o size row_solutions col_targets valid_digits sg)
          acc).1.length = acc.1.length ∧
      (∀ r, ((pairs.foldl (secondPassCell o size row_solutions col_targets valid_digits
          sg) acc).1.getD r []).length = (acc.1.getD r []).length) ∧
      (∀ r c, (sg.getD r []).getD c 0 = 1 →
        ((pairs.foldl (secondPassCell o size row_solutions col_targets valid_digits sg)
            acc).1.getD r []).getD c 0 = (acc.1.getD r []).getD c 0) := by
  intro pairs
  induction pairs with
  | nil =>
    intro acc
    exact ⟨rfl, fun r => rfl, fun r c _ => rfl⟩
  | cons p ps ih =>
    intro acc
    rw [List.foldl_cons]
    obtain ⟨l1, l2, l3⟩ := ih (secondPassCell o size row_solutions col_targets
      valid_digits sg acc p)
    obtain ⟨s1, s2, s3⟩ := secondPassCell_inv o size row_solutions col_targets
      valid_digits sg acc p
    refine ⟨by rw [l1, s1], ?_, ?_⟩
    · intro r
      rw [l2 r, s2 r]
    · intro r c hm
      rw [l3 r c hm, s3 r c hm]

theorem secondPass_inv (o : Oracle) (size : ℕ)
    (row_solutions col_targets valid_digits : List ℤ) (sg : Mask)
    (board : List (List ℤ)) (t : ℕ) :
    (secondPass o size row_solutions col_targets valid_digits sg board t).1.length
      = board.length ∧
    (∀ r, ((secondPass o size row_solutions col_targets valid_digits sg board
        t).1.getD r []).length = (board.getD r []).length) ∧
    (∀ r c, (sg.getD r []).getD c 0 = 1 →
      ((secondPass o size row_solutions col_targets valid_digits sg board t).1.getD
          r []).getD c 0 = (board.getD r []).getD c 0) :=
  secondPass_foldl_inv o size row_solutions col_targets valid_digits sg _ (board, t)

theorem colValues_congr_marked {sg : Mask} {b1 b2 : List (List ℤ)} {size j : ℕ}
    (h : ∀ r c, (sg.getD r []).getD c 0 = 1 →
      (b1.getD r []).getD c 0 = (b2.getD r []).getD c 0) :
    colValues sg b1 size j = colValues sg b2 size j := by
  rw [colValues, colValues]
  apply List.filterMap_congr
  intro r _
  by_cases hm : (sg.getD r []).getD j 0 = 1
  · rw [if_pos hm, if_pos hm, h r j hm]
  · rw [if_neg hm, if_neg hm]

theorem colValues_ne_nil {sg : Mask} {b : List (List ℤ)} {size j r : ℕ}
    (hr : r < size) (hm : (sg.getD r []).getD j 0 = 1) :
    colValues sg b size j ≠ [] := by
  apply List.ne_nil_of_mem (a := (b.getD r []).getD j 0)
  rw [colValues]
  exact List.mem_filterMap.mpr ⟨r, List.mem_range.mpr hr, by rw [if_pos hm]⟩

theorem weighted_choice_pos_of_ne_nil {α : Type} [AddCommMonoid α]
    [LinearOrder α] (r : α) {ws : List α} (h : ws ≠ []) :
    1 ≤ weighted_choice ws r := by
  cases ws with
  | nil => exact absurd rfl h
  | cons w ws => exact weighted_choice_pos r w ws

theorem colTargetsGo_spec (op : Op) (size : ℕ) (mt : ℤ) (board : List (List ℤ))
    (sg : Mask) :
    ∀ (js : List ℕ) (cts : List ℤ),
      colTargetsGo op size mt board sg js = some cts →
      cts.length = js.length ∧
      ∀ k < js.length, cts.getD k 0 =
        (if colValues sg board size (js.getD k 0) = [] then 0
         else reduceOp op (colValues sg board size (js.getD k 0))) := by
  intro js
  induction js with
  | nil =>
    intro cts h
    rw [colTargetsGo] at h
    have h0 : ([] : List ℤ) = cts := by simpa using h
    subst h0
    refine ⟨rfl, ?_⟩
    intro k hk
    exact absurd hk (by simp)
  | cons j js ih =>
    intro cts h
    rw [colTargetsGo] at h
    set tgt : ℤ := (if colValues sg board size j = [] then 0
      else reduceOp op (colValues sg board size j)) with htgt
    by_cases hmt : mt < tgt
    · rw [if_pos hmt] at h
      exact absurd h (by simp)
    · rw [if_neg hmt] at h
      rcases hrest : colTargetsGo op size mt board sg js with _ | rest
      · rw [hrest] at h
        exact absurd h (by simp)
      · rw [hrest] at h
        have hc : tgt :: rest = cts := by simpa using h
        obtain ⟨hlen, hks⟩ := ih rest hrest
        subst hc
        refine ⟨by simp [hlen], ?_⟩
        intro k hk
        cases k with
        | zero => simp [htgt]
        | succ k =>
          have := hks k (by simpa using hk)
          simpa using this

theorem buildRow_spec {o : Oracle} {fuel : ℕ} {operation : String} {size : ℕ}
    {max_target : ℤ} {difficulty : String} {valid_digits : List ℤ}
    {has1 : Bool} {t : ℕ} {row : List ℤ} {srow : List ℕ} {target : ℤ}
    {has1' : Bool} {t' : ℕ}
    (hvne : valid_digits ≠ []) (hvpos : ∀ x ∈ valid_digits, 1 ≤ x)
    (h : buildRow o fuel operation size max_target difficulty valid_digits has1 t
      = some ((row, srow, target), has1', t')) :
    row.length = size ∧ srow.length = size ∧ (∀ x ∈ srow, x = 0 ∨ x = 1) ∧
    maskedVals srow row ≠ [] ∧ (∀ x ∈ maskedVals srow row, 1 ≤ x) ∧
    reduceOp (opOf operation) (maskedVals srow row) = target := by
  rw [buildRow] at h
  simp only at h
  have hWne : (if has1 = true then ([0, 44, 44, 6, 6] : List ℤ)
      else [10, 40, 40, 5, 5]) ≠ [] := by
    cases has1 <;> simp
  revert hWne h
  generalize (if has1 = true then ([0, 44, 44, 6, 6] : List ℤ)
    else [10, 40, 40, 5, 5]) = W
  intro h hWne
  split at h
  · exact absurd h (by simp)
  next hsz =>
    split at h
    · exact absurd h (by simp)
    next sv tg u hclamp =>
      simp only [Option.some.injEq, Prod.mk.injEq] at h
      obtain ⟨⟨hr1, hr2, hr3⟩, _, _⟩ := h
      subst hr1
      subst hr2
      subst hr3
      have hcount : 1 ≤ (weighted_choiceO o t W).1 :=
        weighted_choice_pos_of_ne_nil _ hWne
      obtain ⟨hd1, hd2, hd3⟩ := solutionDraw_spec o operation difficulty
        (weighted_choiceO o t W).2 hvne hcount
      obtain ⟨hs1, hs2, hs3⟩ := clampTarget_spec o (opOf operation) _ max_target
        hvne fuel _ _ _ hd1 hd2 hd3 hclamp
      set cnt := (weighted_choiceO o t W).1 with hcnt_def
      set sd := generate_smart_numbers tg operation valid_digits difficulty o u
        with hsd
      set rv := drawN (fun o t => randChoice o t sd.1) o (size - cnt) sd.2 with hrv
      obtain ⟨hp1, hp2, hp3, hp4⟩ := reconstructRow_props o rv.2 cnt sv rv.1
        hs1.symm
      have hrvlen : rv.1.length = size - cnt := by
        rw [hrv]
        exact drawN_length _ _ _ _
      have hsvpos : ∀ x ∈ sv, 1 ≤ x := by
        intro x hx
        rcases hs2 x hx with hmem | hge
        · exact hvpos x hmem
        · exact hge
      have hsvne : sv ≠ [] := by
        intro h0
        rw [h0] at hs1
        simp at hs1
        omega
      have hrowlen : (reconstructRow o rv.2 cnt sv rv.1).1.1.length = size := by
        rw [hp1, hrvlen, hs1]
        omega
      have hmaskne : maskedVals (reconstructRow o rv.2 cnt sv rv.1).1.2.1
          (reconstructRow o rv.2 cnt sv rv.1).1.1 ≠ [] := by
        intro h0
        apply hsvne
        rw [h0] at hp4
        have h0' : (sv : Multiset ℤ) = 0 := by simpa using hp4.symm
        simpa using h0'
      refine ⟨hrowlen, by rw [hp2, hrowlen], hp3, hmaskne, ?_, ?_⟩
      · intro x hx
        have hxm : x ∈ (sv : Multiset ℤ) := by
          rw [← hp4]
          simpa using hx
        exact hsvpos x (by simpa using hxm)
      · have hperm := Multiset.coe_eq_coe.mp hp4
        rw [reduceOp_perm (opOf operation) hperm hmaskne, hs3]

theorem buildRows_spec (o : Oracle) (fuel : ℕ) (operation : String) (size : ℕ)
    (max_target : ℤ) (difficulty : String) (valid_digits : List ℤ)
    (hvne : valid_digits ≠ []) (hvpos : ∀ x ∈ valid_digits, 1 ≤ x) :
    ∀ (n : ℕ) (has1 : Bool) (t : ℕ) (board : List (List ℤ)) (rs : List ℤ)
      (sgrid : Mask) (t' : ℕ),
      buildRows o fuel operation size max_target difficulty valid_digits n has1 t
        = some (board, rs, sgrid, t') →
      board.length = n ∧ rs.length = n ∧ sgrid.length = n ∧
      ∀ k < n,
        (board.getD k []).length = size ∧ (sgrid.getD k []).length = size ∧
        (∀ x ∈ sgrid.getD k [], x = 0 ∨ x = 1) ∧
        maskedVals (sgrid.getD k []) (board.getD k []) ≠ [] ∧
        (∀ x ∈ maskedVals (sgrid.getD k []) (board.getD k []), 1 ≤ x) ∧
        reduceOp (opOf operation) (maskedVals (sgrid.getD k []) (board.getD k []))
          = rs.getD k 0 := by
  intro n
  induction n with
  | zero =>
    intro has1 t board rs sgrid t' h
    rw [buildRows] at h
    simp only [Option.some.injEq, Prod.mk.injEq] at h
    obtain ⟨rfl, rfl, rfl, rfl⟩ := h
    exact ⟨rfl, rfl, rfl, by intro k hk; exact absurd hk (by simp)⟩
  | succ m ih =>
    intro has1 t board rs sgrid t' h
    rw [buildRows] at h
    rcases hrow : buildRow o fuel operation size max_target difficulty
        valid_digits has1 t with _ | ⟨⟨row0, srow0, tg0⟩, has1'', t''⟩
    · rw [hrow] at h
      exact absurd h (by simp)
    · rw [hrow] at h
      simp only at h
      rcases hrows : buildRows o fuel operation size max_target difficulty
          valid_digits m has1'' t'' with _ | ⟨board', rs', sgrid', t3⟩
      · rw [hrows] at h
        exact absurd h (by simp)
      · rw [hrows] at h
        simp only [Option.some.injEq, Prod.mk.injEq] at h
        obtain ⟨rfl, rfl, rfl, rfl⟩ := h
        obtain ⟨hb, hr, hs, hk⟩ := ih has1'' t'' board' rs' sgrid' t3 hrows
        obtain ⟨q1, q2, q3, q4, q5, q6⟩ := buildRow_spec hvne hvpos hrow
        refine ⟨by simp [hb], by simp [hr], by simp [hs], ?_⟩
        intro k hkm
        cases k with
        | zero =>
          simpa using ⟨q1, q2, q3, q4, q5, q6⟩
        | succ k =>
          have := hk k (by omega)
          simpa using this

theorem generated_solvable_core (operation : String) (size : ℕ)
    (board b : List (List ℤ)) (rs ct : List ℤ) (sgrid : Mask)
    (hbl : board.length = size) (hrl : rs.length = size) (hsl : sgrid.length = size)
    (hrows : ∀ k < size,
      (board.getD k []).length = size ∧ (sgrid.getD k []).length = size ∧
      (∀ x ∈ sgrid.getD k [], x = 0 ∨ x = 1) ∧
      maskedVals (sgrid.getD k []) (board.getD k []) ≠ [] ∧
      (∀ x ∈ maskedVals (sgrid.getD k []) (board.getD k []), 1 ≤ x) ∧
      reduceOp (opOf operation) (maskedVals (sgrid.getD k []) (board.getD k []))
        = rs.getD k 0)
    (hct : ∀ j < size, ct.getD j 0 =
      (if colValues sgrid board size j = [] then 0
       else reduceOp (opOf operation) (colValues sgrid board size j)))
    (hblen : b.length = board.length)
    (hbrow : ∀ r, (b.getD r []).length = (board.getD r []).length)
    (hagree : ∀ r c, (sgrid.getD r []).getD c 0 = 1 →
      (b.getD r []).getD c 0 = (board.getD r []).getD c 0)
    (hcover : ∀ j < size, ∃ r < size, (sgrid.getD r []).getD j 0 = 1) :
    solve_minimal b rs ct (opOf operation)
      (rowPossibilities b rs (opOf operation)) none ≠ none := by
  have hbsz : b.length = size := by rw [hblen, hbl]
  have hcols : (b.headD []).length = size := by
    cases b with
    | nil =>
      have h0 : size = 0 := by simpa using hbsz.symm
      simp [h0]
    | cons hd tl =>
      have h0 : 0 < size := by
        rw [← hbsz]
        simp
      have h1 := hbrow 0
      have h2 := (hrows 0 h0).1
      simpa using h1.trans h2
  have hsghead : (sgrid.headD []).length = size := by
    cases hsg : sgrid with
    | nil =>
      have h0 : size = 0 := by
        rw [← hsl, hsg]
        rfl
      simp [h0]
    | cons hd tl =>
      have h0 : 0 < size := by
        rw [← hsl, hsg]
        simp
      have h2 := (hrows 0 h0).2.1
      rw [hsg] at h2
      simpa using h2
  have hvalid : is_valid_columns sgrid b ct (opOf operation) = true := by
    rw [is_valid_columns_iff]
    intro j hj
    rw [hsghead] at hj
    have hcv : colValues sgrid b b.length j = colValues sgrid board size j := by
      rw [hbsz]
      exact colValues_congr_marked hagree
    obtain ⟨r, hr, hm⟩ := hcover j hj
    have hne : colValues sgrid board size j ≠ [] := colValues_ne_nil hr hm
    refine ⟨by rw [hcv]; exact hne, ?_⟩
    rw [hcv, hct j hj, if_neg hne]
  have hrplen : (rowPossibilities b rs (opOf operation)).length = size := by
    rw [rowPossibilities, List.length_map, List.length_zip, hbsz, hrl]
    omega
  have hmem : sgrid ∈ assignments size (rowPossibilities b rs (opOf operation)) := by
    rw [mem_assignments]
    refine forall₂_of_getD _ [] [] _ _ (by rw [hrplen, hsl]) ?_
    intro k hk
    rw [hrplen] at hk
    obtain ⟨P1, P2, P3, P4, P5, P6⟩ := hrows k hk
    have hbrlen : (b.getD k []).length = size := (hbrow k).trans P1
    have hsb : (sgrid.getD k []).length = (b.getD k []).length := by
      rw [P2, hbrlen]
    have hmeq : maskedVals (sgrid.getD k []) (b.getD k []) =
        maskedVals (sgrid.getD k []) (board.getD k []) := by
      refine maskedVals_congr _ _ _ ((hbrow k)) ?_
      intro c hc
      exact hagree k c hc
    have hsrow_eq : sgrid.getD k [] = maskRow (maskSupp (sgrid.getD k []) size) size :=
      eq_maskRow_of_01 P2 P3
    have hrv : rowValues (sgrid.getD k []) (b.getD k []) =
        maskedVals (sgrid.getD k []) (b.getD k []) :=
      rowValues_eq_maskedVals _ _ hsb
    have hrvne : rowValues (sgrid.getD k []) (b.getD k []) ≠ [] := by
      rw [hrv, hmeq]
      exact P4
    have hsne : (maskSupp (sgrid.getD k []) size).Nonempty := by
      obtain ⟨x, hx⟩ := List.exists_mem_of_ne_nil _ hrvne
      rw [rowValues] at hx
      obtain ⟨i, hi, hval⟩ := List.mem_filterMap.mp hx
      refine ⟨i, ?_⟩
      rw [maskSupp, Finset.mem_filter, Finset.mem_range]
      have hmark : (sgrid.getD k []).getD i 0 = 1 := by
        by_contra hcon
        rw [if_neg hcon] at hval
        exact absurd hval (by simp)
      exact ⟨by rw [← hbrlen]; exact List.mem_range.mp hi, hmark⟩
    have hbnd : ∀ i ∈ maskSupp (sgrid.getD k []) size, i < (b.getD k []).length := by
      intro i hi
      rw [maskSupp, Finset.mem_filter, Finset.mem_range] at hi
      rw [hbrlen]
      exact hi.1
    obtain ⟨_, hsv⟩ := reduceOp_rowValues (opOf operation) hsne hbnd
    rw [hbrlen] at hsv
    have hsubset : subsetValue (opOf operation) (b.getD k [])
        (maskSupp (sgrid.getD k []) size) = rs.getD k 0 := by
      rw [← hsv, ← hsrow_eq, hrv, hmeq, P6]
    refine ⟨maskSupp (sgrid.getD k []) size, ?_, hsrow_eq⟩
    rw [rowPossibilities_getD (by rw [hbsz]; exact hk) (by rw [hrl]; exact hk)]
    rw [mem_find_matching_subsets]
    exact ⟨hsne, fun i hi => hbnd i hi, hsubset⟩
  have hglen : sgrid.length = b.length := by rw [hsl, hbsz]
  have hpos : ∀ r c, r < b.length → c < (sgrid.headD []).length →
      (sgrid.getD r []).getD c 0 = 1 → 1 ≤ (b.getD r []).getD c 0 := by
    intro r c hrb hcs hm
    rw [hbsz] at hrb
    have P := hrows r hrb
    rw [hagree r c hm]
    apply P.2.2.2.2.1
    apply getD_mem_maskedVals _ _ c ?_ hm
    rw [P.2.1, P.1]
  have hpart := isPartial_of_is_valid hglen hpos hvalid
  have hsol : sgrid ∈ pathSols b ct (opOf operation) size
      (rowPossibilities b rs (opOf operation)) [] := by
    have hp : ∀ i, isPartialValidColumns ([] ++ sgrid) i b ct (opOf operation)
        = true := by
      intro i
      simpa using hpart i
    have hv : is_valid_columns ([] ++ sgrid) b ct (opOf operation) = true := by
      simpa using hvalid
    have := mem_pathSols_of_valid b ct (opOf operation) size
      (rowPossibilities b rs (opOf operation)) [] sgrid hmem hp hv
    simpa using this
  rw [solve_minimal, hcols, solveRows_eq_foldl, foldl_updateBest_eq, mergeBest_none]
  intro hnone
  rw [firstMin_eq_none_iff] at hnone
  rw [hnone] at hsol
  exact absurd hsol (by simp)

/-- C2 (amended): a tuple returned by `generate_board_from_solution` whose
solution grid marks at least one cell in every column yields a board on which
`solve_minimal` (run as its callers run it) finds a solution.  The coverage
hypothesis is necessary: the generator can return grids with fully unmarked
columns (column target 0), which `is_valid_columns` rejects, so the original
unconditional claim is false. -/
theorem generate_board_solvable (o : Oracle) (fuel : ℕ) (operation : String)
    (size : ℕ) (max_target : ℤ) (difficulty : String)
    (b : List (List ℤ)) (rt ct : List ℤ) (sg : Mask)
    (hgen : generate_board_from_solution o fuel operation size max_target
      difficulty = some (b, rt, ct, sg))
    (hcover : ∀ j < size, ∃ r < size, (sg.getD r []).getD j 0 = 1) :
    solve_minimal b rt ct (opOf operation)
      (rowPossibilities b rt (opOf operation)) none ≠ none := by
  unfold generate_board_from_solution at hgen
  simp only at hgen
  have hvne : validDigits operation ≠ [] := by
    rw [validDigits]
    split <;> simp
  have hvpos : ∀ x ∈ validDigits operation, 1 ≤ x := by
    rw [validDigits]
    split <;> decide
  rcases heq : buildRows o fuel operation size max_target difficulty
      (validDigits operation) size false 0 with _ | ⟨board, rs, sgrid, t⟩
  · rw [heq] at hgen
    exact absurd hgen (by simp)
  rw [heq] at hgen
  simp only at hgen
  rcases heq2 : colTargetsGo (opOf operation) size max_target board sgrid
      (List.range size) with _ | cts
  · rw [heq2] at hgen
    exact absurd hgen (by simp)
  rw [heq2] at hgen
  simp only at hgen
  obtain ⟨hbl, hrl2, hsl, hrows⟩ := buildRows_spec o fuel operation size
    max_target difficulty (validDigits operation) hvne hvpos size false 0
    board rs sgrid t heq
  obtain ⟨hctlen, hctk⟩ := colTargetsGo_spec (opOf operation) size max_target
    board sgrid (List.range size) cts heq2
  have hct : ∀ j < size, cts.getD j 0 = (if colValues sgrid board size j = []
      then 0 else reduceOp (opOf operation) (colValues sgrid board size j)) := by
    intro j hj
    have hx := hctk j (by simpa using hj)
    have hrj : (List.range size).getD j 0 = j := by
      rw [List.getD_eq_getElem _ _ (by simpa using hj)]
      exact List.getElem_range _ _
    rw [hrj] at hx
    exact hx
  by_cases hdiff : difficulty = "hard"
  · rw [if_pos hdiff] at hgen
    split at hgen
    · exact absurd hgen (by simp)
    next hscore =>
      simp only [Option.some.injEq, Prod.mk.injEq] at hgen
      obtain ⟨h1, h2, h3, h4⟩ := hgen
      subst h1
      subst h2
      subst h3
      subst h4
      obtain ⟨s1, s2, s3⟩ := secondPass_inv o size rs cts
        (validDigits operation) sgrid board t
      exact generated_solvable_core operation size board _ rs cts sgrid
        hbl hrl2 hsl hrows hct s1 s2 s3 hcover
  · rw [if_neg hdiff] at hgen
    simp only [Option.some.injEq, Prod.mk.injEq] at hgen
    obtain ⟨h1, h2, h3, h4⟩ := hgen
    subst h1
    subst h2
    subst h3
    subst h4
    exact generated_solvable_core operation size board board rs cts sgrid
      hbl hrl2 hsl hrows hct rfl (fun r => rfl) (fun r c _ => rfl) hcover

/-- Witness for the amended C2 theorem at a concrete generated instance
(every column of the returned solution grid is marked). -/
theorem generate_board_solvable_witness :
    solve_minimal
      [[7, 7, 7, 7, 7], [7, 7, 7, 7, 7], [7, 7, 7, 7, 7], [7, 7, 7, 7, 7],
        [7, 7, 7, 7, 7]]
      [35, 35, 35, 35, 35] [35, 35, 35, 35, 35] (opOf "+")
      (rowPossibilities
        [[7, 7, 7, 7, 7], [7, 7, 7, 7, 7], [7, 7, 7, 7, 7], [7, 7, 7, 7, 7],
          [7, 7, 7, 7, 7]]
        [35, 35, 35, 35, 35] (opOf "+")) none ≠ none :=
  generate_board_solvable ⟨fun _ => 96⟩ 10 "+" 5 99 "medium" _ _ _
    [[1, 1, 1, 1, 1], [1, 1, 1, 1, 1], [1, 1, 1, 1, 1], [1, 1, 1, 1, 1],
      [1, 1, 1, 1, 1]]
    (by decide) (by decide)

/-- C2 counterexample: a hard-mode multiplication attempt (constant-zero
oracle stream) returns a tuple whose columns 1-4 hold no marked cell (column
target 0); `is_valid_columns` requires every column to carry at least one
marked cell, so `solve_minimal` run on the returned board, as `new_game`
runs it, finds no solution. -/
theorem generate_board_solvable_counterexample :
    generate_board_from_solution ⟨fun _ => 0⟩ 10 "*" 5 99 "hard" =
      some ([[2, 2, 2, 2, 2], [2, 2, 2, 2, 2], [2, 2, 2, 2, 2], [2, 2, 2, 2, 2],
          [2, 2, 2, 2, 2]],
        [2, 2, 2, 2, 2], [32, 0, 0, 0, 0],
        [[1, 0, 0, 0, 0], [1, 0, 0, 0, 0], [1, 0, 0, 0, 0], [1, 0, 0, 0, 0],
          [1, 0, 0, 0, 0]]) ∧
    solve_minimal
      [[2, 2, 2, 2, 2], [2, 2, 2, 2, 2], [2, 2, 2, 2, 2], [2, 2, 2, 2, 2],
        [2, 2, 2, 2, 2]]
      [2, 2, 2, 2, 2] [32, 0, 0, 0, 0] (opOf "*")
      (rowPossibilities
        [[2, 2, 2, 2, 2], [2, 2, 2, 2, 2], [2, 2, 2, 2, 2], [2, 2, 2, 2, 2],
          [2, 2, 2, 2, 2]]
        [2, 2, 2, 2, 2] (opOf "*")) none = none := by
  constructor
  · decide
  · decide
